import Mathlib

/-!
Verification of the audio feature-extraction core of the AiPD repository.

The Python sources are shallowly embedded:
  * src/Projekt2/functions.py        (recursive FFT/IFFT, framing, cepstral F0, spectral features)
  * src/projekt_1/apka/feature_functions.py  (ZCR, AMDF, pitch, silence classification)

Machine reals/complex floats are modelled by exact `Real`/`Complex` arithmetic;
Python exceptions are modelled by `Except String`.
-/

/-- Python `int(q)`: truncation toward zero of a (here exact rational) float. -/
def pyInt (q : ℚ) : ℤ := if 0 ≤ q then ⌊q⌋ else ⌈q⌉

/-- Python slicing `l[::step]` for a nonzero step (numpy basic slicing along axis 0).
For a positive step: indices `0, step, 2*step, …` below `l.length`.
For a negative step: indices `l.length-1, l.length-1+step, …` down to `0`.
A zero step raises in Python; callers of this model guard that case. -/
def pySliceStep {α : Type*} (l : List α) (step : ℤ) : List α :=
  if 0 < step then
    (List.range ((l.length + step.toNat - 1) / step.toNat)).filterMap
      (fun t => l.get? (t * step.toNat))
  else if step < 0 then
    (List.range ((l.length + (-step).toNat - 1) / (-step).toNat)).filterMap
      (fun t => l.get? (l.length - 1 - t * (-step).toNat))
  else []

/-- Python `l[::2]`: the elements at even indices. -/
def everyOther {α : Type*} : List α → List α
  | [] => []
  | [a] => [a]
  | a :: _ :: rest => a :: everyOther rest

/-- `np.cumsum` with a running accumulator. -/
def cumsumFrom : ℝ → List ℝ → List ℝ
  | _, [] => []
  | acc, x :: rest => (acc + x) :: cumsumFrom (acc + x) rest

/-- `np.cumsum l`. -/
def cumsum (l : List ℝ) : List ℝ := cumsumFrom 0 l

/-- `np.diff` of an integer index array (consecutive differences). -/
def pairDiffs : List ℕ → List ℤ
  | a :: b :: rest => ((b : ℤ) - (a : ℤ)) :: pairDiffs (b :: rest)
  | _ => []

/-- The loop of `calculate_zcr`: the number of adjacent pairs whose product is negative. -/
def countCrosses {α : Type*} [LinearOrderedRing α] : List α → ℕ
  | x :: y :: rest => (if x * y < 0 then 1 else 0) + countCrosses (y :: rest)
  | _ => 0

/-- src/projekt_1/apka/feature_functions.py, `calculate_zcr`:
sign changes between consecutive samples divided by `2 * length`.
(Python raises ZeroDivisionError on an empty frame; the classifier model below
accounts for that separately.) -/
def calculate_zcr {α : Type*} [LinearOrderedField α] (data : List α) : α :=
  (countCrosses data : α) / (2 * data.length)

/-- `np.argmax`: the first index attaining the maximum (0 for the empty list,
where numpy raises instead; callers guard that case). -/
def np_argmax {α : Type*} [LinearOrder α] [Inhabited α] : List α → ℕ
  | [] => 0
  | [_] => 0
  | x :: y :: rest =>
      let j := np_argmax (y :: rest)
      if x < (y :: rest).getD j default then j + 1 else 0

/-- `np.max` of a nonempty array (0 sentinel for the empty array, where numpy raises). -/
def npMax : List ℝ → ℝ
  | [] => 0
  | x :: rest => rest.foldl max x

/-- `np.min` of a nonempty array (0 sentinel for the empty array, where numpy raises). -/
def npMin : List ℝ → ℝ
  | [] => 0
  | x :: rest => rest.foldl min x

/-- src/Projekt2/functions.py, `frame_signal`.
`hop = int(frame_length * (1-overlap))`; `(len - frame_length) % hop` raises
ZeroDivisionError when `hop = 0`; `np.pad` rejects a negative pad length;
`sliding_window_view` rejects a window larger than the padded signal; finally
the windows are strided by `[::hop]`.  Python `%` is floored (sign of the
divisor), i.e. `Int.fmod`. -/
def frame_signal {α : Type*} [Zero α] (signal : List α) (frame_length : ℕ) (overlap : ℚ) :
    Except String (List (List α)) :=
  let hop : ℤ := pyInt ((frame_length : ℚ) * (1 - overlap))
  if hop = 0 then .error "ZeroDivisionError" else
  let overhang : ℤ := Int.fmod ((signal.length : ℤ) - (frame_length : ℤ)) hop
  let pad : ℤ := if overhang ≠ 0 then hop - overhang else 0
  if pad < 0 then .error "ValueError: negative pad width" else
  let padded := signal ++ List.replicate pad.toNat 0
  if padded.length < frame_length then
    .error "ValueError: window shape cannot be larger than input array shape" else
  let windows := (List.range (padded.length - frame_length + 1)).map
      (fun s => (padded.drop s).take frame_length)
  .ok (pySliceStep windows hop)

noncomputable section

/-- `np.hamming N` (the textbook coefficients; `[1]` for `N = 1`, `[]` for `N = 0`). -/
def np_hamming (N : ℕ) : List ℝ :=
  if N = 1 then [1] else
  (List.range N).map (fun n => 0.54 - 0.46 * Real.cos (2 * Real.pi * n / (N - 1)))

/-- `np.hanning N` (the textbook coefficients; `[1]` for `N = 1`, `[]` for `N = 0`). -/
def np_hanning (N : ℕ) : List ℝ :=
  if N = 1 then [1] else
  (List.range N).map (fun n => 0.5 - 0.5 * Real.cos (2 * Real.pi * n / (N - 1)))

/-- src/Projekt2/functions.py, `frequency_centroid`:
`den = (sum fft)^2`; returns 0 when `den == 0`, otherwise
`sqrt(sum((fft*frequencies)^2) / den)` (the Python `** (1/2)`). -/
def frequency_centroid (fft frequencies : List ℝ) : ℝ :=
  let den := fft.sum ^ 2
  if den = 0 then 0
  else
    let up := ((List.zipWith (· * ·) fft frequencies).map (fun x => x ^ 2)).sum
    Real.sqrt (up / den)

/-- src/Projekt2/functions.py, `effective_bandwidth`:
returns 0 when `sum fft == 0`, otherwise `sum((frequencies - fc) * fft) / sum fft`. -/
def effective_bandwidth (fft frequencies : List ℝ) : ℝ :=
  let fc := frequency_centroid fft frequencies
  let den := fft.sum
  if den = 0 then 0
  else (List.zipWith (fun freq coef => (freq - fc) * coef) frequencies fft).sum / den

/-- src/Projekt2/functions.py, `ESRB`: returns 0 when `vol == 0`, otherwise
`(sum(fft^2) / sum(hamming N)) / vol`. -/
def ESRB (N : ℕ) (fft : List ℝ) (v : ℝ) : ℝ :=
  if v = 0 then 0
  else ((fft.map (fun x => x ^ 2)).sum / (np_hamming N).sum) / v

/-- The standard (numpy) forward DFT of length `n` on coefficients `x`:
bin `j` is `∑_t x t * exp(-2πi·j·t/n)`. -/
def npdft (n : ℕ) (x : ℕ → ℂ) (j : ℕ) : ℂ :=
  ∑ t ∈ Finset.range n, x t * Complex.exp (-(2 * Real.pi) * Complex.I * j * t / n)

/-- The standard (numpy) inverse DFT of length `n`:
entry `k` is `(∑_j x j * exp(2πi·j·k/n)) / n`. -/
def npidft (n : ℕ) (x : ℕ → ℂ) (k : ℕ) : ℂ :=
  (∑ j ∈ Finset.range n, x j * Complex.exp ((2 * Real.pi) * Complex.I * j * k / n)) / n

/-- A real list viewed as a complex coefficient function, zero beyond its length
(matching numpy zero-padding `np.fft.fft(data, n)` for `n ≥ len(data)`). -/
def xpad (data : List ℝ) (t : ℕ) : ℂ := ((data.getD t 0 : ℝ) : ℂ)

/-- The cepstrum computed by `f0_from_cepstrum` in src/Projekt2/functions.py:
Hanning window, `np.fft.fft`, `log(|spectrum| + 10e-10)`, real part of
`np.fft.ifft`. -/
def cepstrumList (signal : List ℝ) : List ℝ :=
  let windowed := List.zipWith (· * ·) (np_hanning signal.length) signal
  (List.range signal.length).map (fun k =>
    (npidft signal.length (fun j =>
      ((Real.log (Complex.abs (npdft signal.length (xpad windowed) j) + 10e-10) : ℝ) : ℂ))
      k).re)

/-- src/Projekt2/functions.py, `f0_from_cepstrum`: the cepstrum, sliced to
`[int(sr/500) : int(sr/50)]`; `np.argmax` raises ValueError on an empty
slice; `f0 = sr / (argmax + int(sr/500))`. -/
def f0_from_cepstrum (signal : List ℝ) (sr : ℕ) : Except String ℝ :=
  let cepstrum := cepstrumList signal
  let min_quefrency := sr / 500
  let max_quefrency := sr / 50
  let sliced := (cepstrum.drop min_quefrency).take (max_quefrency - min_quefrency)
  if sliced.isEmpty then .error "ValueError: attempt to get argmax of an empty sequence"
  else .ok ((sr : ℝ) / (np_argmax sliced + min_quefrency))

/-- The butterfly combine step shared by `FFT` and `IFFT` in
src/Projekt2/functions.py: `ret = [0] * n`; for `i < n//2`,
`ret[i] = e[i] + w^i * o[i]` and `ret[i + n//2] = e[i] - w^i * o[i]`,
with twiddle `w = exp(s*2πi/n)` (`s = 1` forward, `s = -1` inverse). -/
def combine (s : ℤ) (n : ℕ) (e o : List ℂ) : List ℂ :=
  (List.range n).map (fun j =>
    if j < n / 2 then
      e.getD j 0 + Complex.exp ((s : ℂ) * (2 * Real.pi) * Complex.I / n) ^ j * o.getD j 0
    else if j < n / 2 + n / 2 then
      e.getD (j - n / 2) 0 -
        Complex.exp ((s : ℂ) * (2 * Real.pi) * Complex.I / n) ^ (j - n / 2) * o.getD (j - n / 2) 0
    else 0)

/-- The shared recursion of `FFT`/`IFFT`: base case length ≤ 1 returns the list,
otherwise recurse on `l[::2]` and `l[1::2]` and combine.  The fuel argument
makes the recursion structural; fuel = length suffices since every recursive
call at least halves the length (the Python code recurses directly, with the
power-of-two length precondition guaranteeing termination). -/
def dfftAux (s : ℤ) : ℕ → List ℂ → List ℂ
  | 0, l => l
  | fuel + 1, l =>
    if l.length ≤ 1 then l
    else combine s l.length (dfftAux s fuel (everyOther l)) (dfftAux s fuel (everyOther l.tail))

/-- src/Projekt2/functions.py, `FFT` (twiddle `exp(2πi/n)`). -/
def FFT (l : List ℂ) : List ℂ := dfftAux 1 l.length l

/-- src/Projekt2/functions.py, `IFFT` (twiddle `exp(-2πi/n)`, no scaling). -/
def IFFT (l : List ℂ) : List ℂ := dfftAux (-1) l.length l

/-- src/Projekt2/functions.py, `full_IFFT`: `IFFT` divided elementwise by `n`. -/
def full_IFFT (l : List ℂ) : List ℂ := (IFFT l).map (fun z => z / (l.length : ℂ))

/-- Bin `j` of the mathematical DFT of `l` with sign `s`:
`∑_t l[t] * exp(s*2πi*j*t/n)`.  `FFT = dftPoint 1`, `IFFT = dftPoint (-1)`
pointwise (proved below for power-of-two lengths). -/
def dftPoint (s : ℤ) (l : List ℂ) (j : ℕ) : ℂ :=
  ∑ t ∈ Finset.range l.length,
    l.getD t 0 * Complex.exp ((s : ℂ) * (2 * Real.pi) * Complex.I * j * t / l.length)

/-- src/projekt_1/apka/feature_functions.py, `amdf`, suffix-sum component:
`sum_x2 = np.cumsum(signal_sq[::-1])[::-1]`. -/
def sum_x2 (data : List ℝ) : List ℝ :=
  (cumsum ((data.reverse).map (fun x => x ^ 2))).reverse

/-- `np.roll(l, -1)`: entry `i` becomes `l[(i+1) % len]`. -/
def np_roll_neg1 (l : List ℝ) : List ℝ :=
  (List.range l.length).map (fun i => l.getD ((i + 1) % l.length) 0)

/-- src/projekt_1/apka/feature_functions.py, `amdf`, correlation component:
`np.fft.ifft(fft_signal * np.conj(fft_signal)).real[k]` where
`fft_signal = np.fft.fft(data, 2*N)`. -/
def auto_corr (data : List ℝ) (k : ℕ) : ℝ :=
  (npidft (2 * data.length)
    (fun j => npdft (2 * data.length) (xpad data) j *
      (starRingEnd ℂ) (npdft (2 * data.length) (xpad data) j)) k).re

/-- src/projekt_1/apka/feature_functions.py, `amdf`:
`(sum_x2[:N] + np.roll(sum_x2,-1)[:N] - 2 * auto_corr) / N`. -/
def amdf (data : List ℝ) : List ℝ :=
  (List.range data.length).map (fun k =>
    ((sum_x2 data).getD k 0 + (np_roll_neg1 (sum_x2 data)).getD k 0 -
      2 * auto_corr data k) / (data.length : ℝ))

/-- The direct (O(n²)) linear autocorrelation at lag `k`:
`∑_{n < N-k} data[n] * data[n+k]`. -/
def lin_autocorr (data : List ℝ) (k : ℕ) : ℝ :=
  ∑ n ∈ Finset.range (data.length - k), data.getD n 0 * data.getD (n + k) 0

/-- The suffix sum of squares from index `k`: `∑_{t ≥ k} data[t]^2`. -/
def suffix_sq_sum (data : List ℝ) (k : ℕ) : ℝ :=
  ∑ t ∈ Finset.Ico k data.length, (data.getD t 0) ^ 2

/-- Reference definition taken from the words of the claim (not from the code):
the naive Average Magnitude Difference Function, the average absolute
difference `(1/N) * ∑_n |x[n] - x[n+k]|` between the signal and a copy of
itself shifted by `k` samples. -/
def naive_amdf (data : List ℝ) (k : ℕ) : ℝ :=
  (∑ n ∈ Finset.range (data.length - k), |data.getD n 0 - data.getD (n + k) 0|) /
    (data.length : ℝ)

/-- scipy `_local_maxima_1d`, inner while loop: the first index `≥ j` that either
reaches `y.length - 1` or holds a value different from `v` (the end of a plateau). -/
def plateauEnd (y : List ℝ) (v : ℝ) : ℕ → ℕ → ℕ
  | 0, j => j
  | fuel + 1, j =>
      if j < y.length - 1 ∧ y.getD j 0 = v then plateauEnd y v fuel (j + 1) else j

/-- scipy `_local_maxima_1d`, outer loop at position `i` (started at 1):
while `i < n - 1`, if `y[i-1] < y[i]`, scan the plateau ahead; if the sample
after the plateau is `< y[i]`, record the plateau midpoint and jump past the
plateau; otherwise advance by one.  Fuel = `y.length` suffices since `i`
strictly increases. -/
def lmLoop (y : List ℝ) : ℕ → ℕ → List ℕ
  | 0, _ => []
  | fuel + 1, i =>
      if i < y.length - 1 then
        if y.getD (i - 1) 0 < y.getD i 0 then
          let ia := plateauEnd y (y.getD i 0) y.length (i + 1)
          if y.getD ia 0 < y.getD i 0 then
            ((i + (ia - 1)) / 2) :: lmLoop y fuel (ia + 1)
          else lmLoop y fuel (i + 1)
        else lmLoop y fuel (i + 1)
      else []

/-- scipy `find_peaks` local maxima (indices of strict local maxima, plateau
midpoints, boundaries excluded). -/
def localMaxima (y : List ℝ) : List ℕ := lmLoop y y.length 1

/-- scipy `_peak_prominences`, left scan: from `i` downward while `y[i] ≤ v`,
tracking the minimum. -/
def promLeftMin (y : List ℝ) (v : ℝ) : ℕ → ℝ → ℝ
  | 0, acc => if y.getD 0 0 ≤ v then min acc (y.getD 0 0) else acc
  | i + 1, acc =>
      if y.getD (i + 1) 0 ≤ v then promLeftMin y v i (min acc (y.getD (i + 1) 0)) else acc

/-- scipy `_peak_prominences`, right scan: from `i` upward while `i < y.length`
and `y[i] ≤ v`, tracking the minimum. -/
def promRightMin (y : List ℝ) (v : ℝ) : ℕ → ℕ → ℝ → ℝ
  | 0, _, acc => acc
  | fuel + 1, i, acc =>
      if i < y.length ∧ y.getD i 0 ≤ v then
        promRightMin y v fuel (i + 1) (min acc (y.getD i 0))
      else acc

/-- scipy peak prominence of index `p` in `y` (window length unrestricted):
`y[p]` minus the higher of the two bases. -/
def prominence (y : List ℝ) (p : ℕ) : ℝ :=
  let v := y.getD p 0
  v - max (promLeftMin y v p v) (promRightMin y v y.length p v)

/-- scipy `find_peaks(y, prominence=pmin)`: local maxima whose prominence is at
least `pmin`. -/
def promPeaks (y : List ℝ) (pmin : ℝ) : List ℕ :=
  (localMaxima y).filter (fun p => pmin ≤ prominence y p)

/-- src/projekt_1/apka/feature_functions.py, `find_average_minima_spacing`:
`find_peaks(-amdf_vals, prominence)`; `None` when fewer than two minima,
otherwise the mean of the consecutive index differences. -/
def find_average_minima_spacing (amdf_vals : List ℝ) (prom : ℝ) : Option ℝ :=
  let minima_indices := promPeaks (amdf_vals.map (fun x => -x)) prom
  if minima_indices.length < 2 then none
  else some (((pairDiffs minima_indices).map (fun d => (d : ℝ))).sum /
    ((pairDiffs minima_indices).length : ℝ))

/-- src/projekt_1/apka/feature_functions.py, `amplitude`: `max - min`. -/
def amplitude (data : List ℝ) : ℝ := npMax data - npMin data

/-- src/projekt_1/apka/feature_functions.py, `calculate_f0`:
AMDF, then average minima spacing at prominence `0.85 * amplitude`; a falsy
spacing (`None`, or `0.0`) is replaced by 1; returns `sample_rate / spacing`.
An empty frame raises inside `amdf` (`np.fft.fft(data, 0)` is invalid). -/
def calculate_f0 (data : List ℝ) (sample_rate : ℕ) : Except String ℝ :=
  if data.length = 0 then .error "ValueError: invalid number of FFT data points" else
  let AMDF := amdf data
  let amp := amplitude AMDF
  let spacing : ℝ :=
    match find_average_minima_spacing AMDF (0.85 * amp) with
    | none => 1
    | some s => if s = 0 then 1 else s
  .ok ((sample_rate : ℝ) / spacing)

end

/-- Size of chunk `i` of `np.array_split` of a length-`N` array into `n` parts:
`N/n + 1` for the first `N % n` chunks, `N/n` for the rest. -/
def splitSize (N n i : ℕ) : ℕ := N / n + if i < N % n then 1 else 0

/-- Start offset of chunk `i` of `np.array_split` of a length-`N` array into
`n` parts. -/
def splitStart (N n i : ℕ) : ℕ := i * (N / n) + min i (N % n)

/-- `np.array_split l n`: `n` contiguous chunks, the first `len % n` of size
`len/n + 1`, the rest of size `len/n`. -/
def array_split {α : Type*} (l : List α) (n : ℕ) : List (List α) :=
  (List.range n).map (fun i => (l.drop (splitStart l.length n i)).take (splitSize l.length n i))

/-- The `(start_sample, end_sample)` pairs of the `n` chunks of `array_split`
applied to a length-`N` signal, in chunk order. -/
def allSegs (N n : ℕ) : List (ℕ × ℕ) :=
  (List.range n).map (fun i => (splitStart N n i, splitStart N n i + splitSize N n i))

noncomputable section

/-- src/projekt_1/apka/feature_functions.py, `calculate_max_vol`:
running maximum (initialised to -3) of `sqrt(mean(frame²))` over the chunks.
(For an empty chunk numpy yields NaN — which never updates the maximum —
while this model's `0/0 = 0` could; the claims below only use it with
nonempty chunks, where the two agree.) -/
def calculate_max_vol (full_data : List ℝ) (nframes : ℕ) : ℝ :=
  (array_split full_data nframes).foldl
    (fun maxv frame =>
      let v := Real.sqrt ((frame.map (fun x => x ^ 2)).sum / (frame.length : ℝ))
      if maxv < v then v else maxv) (-3)

/-- Classification of one frame in `calculate_silence_ratio_voiced_unvoiced`:
0 = silent (`zcr < 0.03` and `sqrt(sum frame²) < 0.05*maxv`),
1 = voiced (`zcr < 0.03` and `sqrt(sum frame²) > 0.05*maxv`),
2 = unvoiced (otherwise). -/
def classifyFrame (maxv : ℝ) (frame : List ℝ) : ℕ :=
  let v := Real.sqrt ((frame.map (fun x => x ^ 2)).sum)
  if calculate_zcr frame < 0.03 ∧ v < 0.05 * maxv then 0
  else if calculate_zcr frame < 0.03 ∧ 0.05 * maxv < v then 1
  else 2

/-- The loop of `calculate_silence_ratio_voiced_unvoiced`: walk the chunks,
tracking the running sample offset; `calculate_zcr` raises ZeroDivisionError
on an empty chunk (division by `2*0`); otherwise append the chunk's
`(curr, curr + len)` segment to the list selected by `classifyFrame` and
count the silent chunks. -/
def svuLoop (maxv : ℝ) : List (List ℝ) → ℕ →
    Except String (ℕ × List (ℕ × ℕ) × List (ℕ × ℕ) × List (ℕ × ℕ))
  | [], _ => .ok (0, [], [], [])
  | frame :: rest, curr =>
      if frame.length = 0 then .error "ZeroDivisionError" else
      match svuLoop maxv rest (curr + frame.length) with
      | .error e => .error e
      | .ok (sc, si, vo, un) =>
          let seg := (curr, curr + frame.length)
          if classifyFrame maxv frame = 0 then .ok (sc + 1, seg :: si, vo, un)
          else if classifyFrame maxv frame = 1 then .ok (sc, si, seg :: vo, un)
          else .ok (sc, si, vo, seg :: un)

/-- src/projekt_1/apka/feature_functions.py,
`calculate_silence_ratio_voiced_unvoiced`: returns
`(silent/nframes, silent_idxs, voiced_idxs, unvoiced_idxs)`. -/
def calculate_silence_ratio_voiced_unvoiced (full_data : List ℝ) (nframes : ℕ) :
    Except String (ℝ × List (ℕ × ℕ) × List (ℕ × ℕ) × List (ℕ × ℕ)) :=
  let maxv := calculate_max_vol full_data nframes
  match svuLoop maxv (array_split full_data nframes) 0 with
  | .error e => .error e
  | .ok (sc, si, vo, un) => .ok ((sc : ℝ) / (nframes : ℝ), si, vo, un)

end

/-- Each frame of a frame list paired with its `(start, end)` sample segment,
starting from offset `curr`. -/
def segList : List (List ℝ) → ℕ → List ((ℕ × ℕ) × List ℝ)
  | [], _ => []
  | f :: rest, curr => ((curr, curr + f.length), f) :: segList rest (curr + f.length)

/-! ## Helper lemmas -/

theorem countCrosses_of_chain {α : Type*} [LinearOrderedRing α] :
    ∀ (data : List α), data.Chain' (fun x y => x * y < 0) →
      countCrosses data = data.length - 1
  | [], _ => rfl
  | [_], _ => rfl
  | x :: y :: rest, h => by
      rw [List.chain'_cons] at h
      simp only [countCrosses, if_pos h.1, countCrosses_of_chain (y :: rest) h.2,
        List.length_cons]
      omega

theorem np_argmax_lt_length {α : Type*} [LinearOrder α] [Inhabited α] :
    ∀ (l : List α), l ≠ [] → np_argmax l < l.length
  | [], h => absurd rfl h
  | [_], _ => Nat.zero_lt_one
  | x :: y :: rest, _ => by
      have ih := np_argmax_lt_length (y :: rest) (by simp)
      simp only [np_argmax, List.length_cons] at ih ⊢
      split <;> omega

theorem lmLoop_one_short (y : List ℝ) (hy : y.length ≤ 2) :
    ∀ fuel, lmLoop y fuel 1 = [] := by
  intro fuel
  cases fuel with
  | zero => rfl
  | succ f =>
      have : ¬ (1 < y.length - 1) := by omega
      simp [lmLoop, this]

theorem localMaxima_short (y : List ℝ) (hy : y.length ≤ 2) : localMaxima y = [] :=
  lmLoop_one_short y hy _

theorem amdf_length (data : List ℝ) : (amdf data).length = data.length := by
  simp [amdf]

theorem getD_map_range_any {α : Type*} (n j : ℕ) (f : ℕ → α) (d : α) (hj : j < n) :
    ((List.range n).map f).getD j d = f j := by
  rw [List.getD_eq_getElem?_getD, List.getElem?_map, List.getElem?_range hj]
  rfl

theorem getD_eq_getElem {α : Type*} (l : List α) (d : α) (i : ℕ) (h : i < l.length) :
    l.getD i d = l[i] := by
  rw [List.getD_eq_getElem?_getD, List.getElem?_eq_getElem h]
  rfl

theorem cumsumFrom_length : ∀ (acc : ℝ) (l : List ℝ), (cumsumFrom acc l).length = l.length
  | _, [] => rfl
  | acc, x :: rest => by
      simp only [cumsumFrom, List.length_cons, cumsumFrom_length (acc + x) rest]

theorem cumsumFrom_getD : ∀ (acc : ℝ) (l : List ℝ) (i : ℕ), i < l.length →
    (cumsumFrom acc l).getD i 0 = acc + ∑ j ∈ Finset.range (i + 1), l.getD j 0
  | acc, [], i, h => by simp at h
  | acc, x :: rest, 0, _ => by
      simp [cumsumFrom]
  | acc, x :: rest, i + 1, h => by
      rw [show cumsumFrom acc (x :: rest) = (acc + x) :: cumsumFrom (acc + x) rest from rfl,
        List.getD_cons_succ, cumsumFrom_getD (acc + x) rest i (by simpa using h),
        Finset.sum_range_succ' (fun j => (x :: rest).getD j 0) (i + 1)]
      simp only [List.getD_cons_succ, List.getD_cons_zero]
      ring

theorem sum_x2_length (data : List ℝ) : (sum_x2 data).length = data.length := by
  simp [sum_x2, cumsum, cumsumFrom_length]

theorem getD_reverse {α : Type*} (l : List α) (d : α) (i : ℕ) (hi : i < l.length) :
    l.reverse.getD i d = l.getD (l.length - 1 - i) d := by
  rw [getD_eq_getElem _ _ i (by simpa using hi), getD_eq_getElem _ _ _ (by omega),
    List.getElem_reverse]

theorem sum_x2_getD (data : List ℝ) (k : ℕ) (hk : k < data.length) :
    (sum_x2 data).getD k 0 = suffix_sq_sum data k := by
  set N := data.length with hN
  have hrevlen : ((data.reverse).map (fun x => x ^ 2)).length = N := by simp
  have hclen : (cumsum ((data.reverse).map (fun x => x ^ 2))).length = N := by
    rw [cumsum, cumsumFrom_length, hrevlen]
  rw [sum_x2, getD_reverse _ 0 k (by rw [hclen]; exact hk), hclen, cumsum,
    cumsumFrom_getD 0 _ (N - 1 - k) (by rw [hrevlen]; omega), zero_add]
  have hterm : ∀ j ∈ Finset.range (N - 1 - k + 1),
      ((data.reverse).map (fun x => x ^ 2)).getD j 0 = (data.getD (N - 1 - j) 0) ^ 2 := by
    intro j hj
    rw [Finset.mem_range] at hj
    rw [getD_eq_getElem _ _ j (by omega), List.getElem_map, List.getElem_reverse,
      ← getD_eq_getElem _ (0 : ℝ) _ (by omega)]
  rw [Finset.sum_congr rfl hterm]
  rw [suffix_sq_sum, ← hN, Finset.sum_Ico_eq_sum_range]
  have hcard : N - 1 - k + 1 = N - k := by omega
  rw [hcard]
  rw [← Finset.sum_range_reflect (fun j => (data.getD (k + j) 0) ^ 2) (N - k)]
  apply Finset.sum_congr rfl
  intro j hj
  rw [Finset.mem_range] at hj
  congr 2
  omega

theorem filterMap_eq_map_of_some {α β : Type*} (f : α → Option β) (g : α → β) :
    ∀ (l : List α), (∀ x ∈ l, f x = some (g x)) → l.filterMap f = l.map g
  | [], _ => rfl
  | a :: rest, h => by
      rw [List.filterMap_cons, List.map_cons, h a (List.mem_cons_self _ _),
        filterMap_eq_map_of_some f g rest (fun x hx => h x (List.mem_cons_of_mem _ hx))]

theorem pySliceStep_map_range {α : Type*} (W : ℕ) (g : ℕ → α) (L : ℕ) (hL : 0 < L) :
    pySliceStep ((List.range W).map g) (L : ℤ) =
      (List.range ((W + L - 1) / L)).map (fun t => g (t * L)) := by
  unfold pySliceStep
  rw [if_pos (by exact_mod_cast hL)]
  rw [List.length_map, List.length_range, Int.toNat_natCast]
  apply filterMap_eq_map_of_some
  intro t ht
  rw [List.mem_range] at ht
  have htW : t * L < W := by
    have ht1 : t + 1 ≤ (W + L - 1) / L := ht
    have h1 : (t + 1) * L ≤ W + L - 1 := (Nat.le_div_iff_mul_le hL).mp ht1
    have h3 : (t + 1) * L = t * L + L := by ring
    omega
  rw [List.get?_eq_getElem?, List.getElem?_map, List.getElem?_range htW]
  rfl

theorem join_chunks {α : Type*} :
    ∀ (q : ℕ) (l : List α) (L : ℕ), 0 < L → l.length = (q + 1) * L →
      ((List.range (q + 1)).map (fun t => (l.drop (t * L)).take L)).flatten = l
  | 0, l, L, hL, hlen => by
      rw [show List.range 1 = [0] from rfl, List.map_cons, List.map_nil, List.flatten_cons,
        List.flatten_nil, List.append_nil, Nat.zero_mul, List.drop_zero]
      exact List.take_of_length_le (by omega)
  | q + 1, l, L, hL, hlen => by
      rw [List.range_succ_eq_map, List.map_cons, List.map_map, List.flatten_cons,
        Nat.zero_mul, List.drop_zero]
      have hmap : (List.range (q + 1)).map
          ((fun t => (l.drop (t * L)).take L) ∘ Nat.succ) =
          (List.range (q + 1)).map (fun t => ((l.drop L).drop (t * L)).take L) := by
        apply List.map_congr_left
        intro t _
        simp only [Function.comp_apply, Nat.succ_eq_add_one]
        rw [List.drop_drop]
        congr 2
        ring
      rw [hmap, join_chunks q (l.drop L) L hL (by
        rw [List.length_drop, hlen]
        have h : (q + 1 + 1) * L = (q + 1) * L + L := by ring
        omega)]
      exact List.take_append_drop L l

/-! ## Roots-of-unity and DFT helper lemmas -/

theorem exp_orth (n : ℕ) (hn : 0 < n) (d : ℤ) :
    ∑ t ∈ Finset.range n, Complex.exp (2 * Real.pi * Complex.I * d * t / n) =
      if (n : ℤ) ∣ d then (n : ℂ) else 0 := by
  have hnC : ((n : ℂ)) ≠ 0 := Nat.cast_ne_zero.mpr hn.ne'
  have h2pi : (2 * (Real.pi : ℂ) * Complex.I) ≠ 0 := by
    simp [Complex.ofReal_ne_zero.mpr Real.pi_ne_zero, Complex.I_ne_zero]
  have hterm : ∀ t : ℕ, Complex.exp (2 * Real.pi * Complex.I * d * t / n) =
      (Complex.exp (2 * Real.pi * Complex.I * d / n)) ^ t := by
    intro t
    rw [← Complex.exp_nat_mul]
    congr 1
    ring
  rw [Finset.sum_congr rfl (fun t _ => hterm t)]
  by_cases hdvd : (n : ℤ) ∣ d
  · obtain ⟨m, rfl⟩ := hdvd
    have hz : Complex.exp (2 * Real.pi * Complex.I * (((n : ℤ) * m : ℤ) : ℂ) / n) = 1 := by
      have he : (2 * (Real.pi : ℂ) * Complex.I * (((n : ℤ) * m : ℤ) : ℂ) / n) =
          (m : ℤ) * (2 * Real.pi * Complex.I) := by
        push_cast
        field_simp
        ring
      rw [he, Complex.exp_int_mul_two_pi_mul_I]
    rw [if_pos ⟨m, rfl⟩, hz]
    simp
  · rw [if_neg hdvd]
    have hz1 : Complex.exp (2 * Real.pi * Complex.I * d / n) ≠ 1 := by
      intro h
      rw [Complex.exp_eq_one_iff] at h
      obtain ⟨m, hm⟩ := h
      apply hdvd
      refine ⟨m, ?_⟩
      have hr : ((d : ℂ)) = (n : ℂ) * m := by
        field_simp at hm
        have h2 : (2 * (Real.pi : ℂ) * Complex.I) * (d : ℂ) =
            (2 * (Real.pi : ℂ) * Complex.I) * ((n : ℂ) * m) := by
          linear_combination hm
        exact mul_left_cancel₀ h2pi h2
      exact_mod_cast hr
    have hzn : (Complex.exp (2 * Real.pi * Complex.I * d / n)) ^ n = 1 := by
      rw [← Complex.exp_nat_mul]
      have he : (n : ℂ) * (2 * Real.pi * Complex.I * d / n) =
          (d : ℤ) * (2 * Real.pi * Complex.I) := by
        field_simp
        ring
      rw [he, Complex.exp_int_mul_two_pi_mul_I]
    rw [geom_sum_eq hz1, hzn]
    simp

theorem sum_range_even_odd (m : ℕ) (f : ℕ → ℂ) :
    ∑ t ∈ Finset.range (2 * m), f t =
      ∑ u ∈ Finset.range m, f (2 * u) + ∑ u ∈ Finset.range m, f (2 * u + 1) := by
  induction m with
  | zero => simp
  | succ p ih =>
      rw [show 2 * (p + 1) = 2 * p + 1 + 1 from by ring, Finset.sum_range_succ,
        Finset.sum_range_succ, ih, Finset.sum_range_succ, Finset.sum_range_succ]
      ring

theorem everyOther_length {α : Type*} : ∀ l : List α, (everyOther l).length = (l.length + 1) / 2
  | [] => by simp [everyOther]
  | [_] => by simp [everyOther]
  | _ :: _ :: rest => by
      simp only [everyOther, List.length_cons, everyOther_length rest]
      omega

theorem everyOther_getD : ∀ (l : List ℂ) (i : ℕ), (everyOther l).getD i 0 = l.getD (2 * i) 0
  | [], i => by simp [everyOther]
  | [a], i => by
      cases i with
      | zero => rfl
      | succ m =>
          have h1 : 2 * (m + 1) = 2 * m + 1 + 1 := by ring
          simp [everyOther, h1]
  | a :: b :: rest, i => by
      cases i with
      | zero => rfl
      | succ m =>
          have h1 : 2 * (m + 1) = 2 * m + 1 + 1 := by ring
          rw [h1]
          simp only [everyOther, List.getD_cons_succ]
          exact everyOther_getD rest m

theorem everyOther_tail_getD (l : List ℂ) (i : ℕ) :
    (everyOther l.tail).getD i 0 = l.getD (2 * i + 1) 0 := by
  cases l with
  | nil => simp [everyOther]
  | cons a t =>
      rw [List.tail_cons, everyOther_getD t i]
      rfl

theorem getD_map_range (n j : ℕ) (f : ℕ → ℂ) (hj : j < n) :
    ((List.range n).map f).getD j 0 = f j := by
  rw [List.getD_eq_getElem?_getD, List.getElem?_map, List.getElem?_range hj]
  rfl

theorem dftPoint_eq_pow (s : ℤ) (l : List ℂ) (j : ℕ) :
    dftPoint s l j = ∑ t ∈ Finset.range l.length,
      l.getD t 0 *
        (Complex.exp ((s : ℂ) * (2 * Real.pi) * Complex.I / (l.length : ℂ))) ^ (j * t) := by
  unfold dftPoint
  apply Finset.sum_congr rfl
  intro t _
  congr 1
  rw [← Complex.exp_nat_mul]
  congr 1
  push_cast
  ring

theorem zeta_sq (s : ℤ) (m : ℕ) (hm : 0 < m) :
    Complex.exp ((s : ℂ) * (2 * Real.pi) * Complex.I / ((2 * m : ℕ) : ℂ)) ^ 2 =
      Complex.exp ((s : ℂ) * (2 * Real.pi) * Complex.I / ((m : ℕ) : ℂ)) := by
  have hmC : ((m : ℕ) : ℂ) ≠ 0 := Nat.cast_ne_zero.mpr hm.ne'
  rw [show (2 : ℕ) = (2 : ℕ) from rfl, ← Complex.exp_nat_mul]
  congr 1
  push_cast
  field_simp
  ring

theorem zeta_m_pow (s : ℤ) (m : ℕ) (hm : 0 < m) :
    Complex.exp ((s : ℂ) * (2 * Real.pi) * Complex.I / ((m : ℕ) : ℂ)) ^ m = 1 := by
  have hmC : ((m : ℕ) : ℂ) ≠ 0 := Nat.cast_ne_zero.mpr hm.ne'
  rw [← Complex.exp_nat_mul]
  rw [show ((m : ℕ) : ℂ) * ((s : ℂ) * (2 * Real.pi) * Complex.I / ((m : ℕ) : ℂ)) =
      (s : ℂ) * (2 * (Real.pi : ℂ) * Complex.I) from by field_simp; ring]
  exact Complex.exp_int_mul_two_pi_mul_I s

theorem zeta_half_pow (s : ℤ) (hs : s = 1 ∨ s = -1) (m : ℕ) (hm : 0 < m) :
    Complex.exp ((s : ℂ) * (2 * Real.pi) * Complex.I / ((2 * m : ℕ) : ℂ)) ^ m = -1 := by
  have hmC : ((m : ℕ) : ℂ) ≠ 0 := Nat.cast_ne_zero.mpr hm.ne'
  rw [← Complex.exp_nat_mul]
  have harg : ((m : ℕ) : ℂ) * ((s : ℂ) * (2 * Real.pi) * Complex.I / ((2 * m : ℕ) : ℂ)) =
      (s : ℂ) * ((Real.pi : ℂ) * Complex.I) := by
    push_cast
    field_simp
    ring
  rw [harg]
  rcases hs with rfl | rfl
  · push_cast
    rw [one_mul, Complex.exp_pi_mul_I]
  · push_cast
    rw [show ((-1 : ℂ)) * ((Real.pi : ℂ) * Complex.I) = -((Real.pi : ℂ) * Complex.I) from by
      ring, Complex.exp_neg, Complex.exp_pi_mul_I]
    norm_num

theorem dftPoint_split_low (s : ℤ) (l : List ℂ) (m : ℕ) (hm : 0 < m)
    (hn : l.length = 2 * m) (j : ℕ) :
    dftPoint s l j = dftPoint s (everyOther l) j +
      Complex.exp ((s : ℂ) * (2 * Real.pi) * Complex.I / (l.length : ℂ)) ^ j *
        dftPoint s (everyOther l.tail) j := by
  have hev : (everyOther l).length = m := by rw [everyOther_length, hn]; omega
  have hod : (everyOther l.tail).length = m := by
    rw [everyOther_length, List.length_tail, hn]; omega
  rw [dftPoint_eq_pow, dftPoint_eq_pow, dftPoint_eq_pow, hn, hev, hod, sum_range_even_odd,
    Finset.mul_sum]
  congr 1
  · apply Finset.sum_congr rfl
    intro u _
    show l.getD (2 * u) 0 *
        Complex.exp ((s : ℂ) * (2 * Real.pi) * Complex.I / ((2 * m : ℕ) : ℂ)) ^ (j * (2 * u)) =
      (everyOther l).getD u 0 *
        Complex.exp ((s : ℂ) * (2 * Real.pi) * Complex.I / ((m : ℕ) : ℂ)) ^ (j * u)
    rw [everyOther_getD]
    congr 1
    rw [← zeta_sq s m hm, ← pow_mul]
    congr 1
    ring
  · apply Finset.sum_congr rfl
    intro u _
    show l.getD (2 * u + 1) 0 *
        Complex.exp ((s : ℂ) * (2 * Real.pi) * Complex.I / ((2 * m : ℕ) : ℂ)) ^
          (j * (2 * u + 1)) =
      Complex.exp ((s : ℂ) * (2 * Real.pi) * Complex.I / ((2 * m : ℕ) : ℂ)) ^ j *
        ((everyOther l.tail).getD u 0 *
          Complex.exp ((s : ℂ) * (2 * Real.pi) * Complex.I / ((m : ℕ) : ℂ)) ^ (j * u))
    rw [everyOther_tail_getD]
    rw [show j * (2 * u + 1) = j + 2 * (j * u) from by ring, pow_add, pow_mul, zeta_sq s m hm]
    ring

theorem dftPoint_split_high (s : ℤ) (hs : s = 1 ∨ s = -1) (l : List ℂ) (m : ℕ) (hm : 0 < m)
    (hn : l.length = 2 * m) (i : ℕ) :
    dftPoint s l (i + m) = dftPoint s (everyOther l) i -
      Complex.exp ((s : ℂ) * (2 * Real.pi) * Complex.I / (l.length : ℂ)) ^ i *
        dftPoint s (everyOther l.tail) i := by
  have hev : (everyOther l).length = m := by rw [everyOther_length, hn]; omega
  have hod : (everyOther l.tail).length = m := by
    rw [everyOther_length, List.length_tail, hn]; omega
  rw [dftPoint_eq_pow, dftPoint_eq_pow, dftPoint_eq_pow, hn, hev, hod, sum_range_even_odd,
    sub_eq_add_neg, Finset.mul_sum, ← Finset.sum_neg_distrib]
  congr 1
  · apply Finset.sum_congr rfl
    intro u _
    show l.getD (2 * u) 0 *
        Complex.exp ((s : ℂ) * (2 * Real.pi) * Complex.I / ((2 * m : ℕ) : ℂ)) ^
          ((i + m) * (2 * u)) =
      (everyOther l).getD u 0 *
        Complex.exp ((s : ℂ) * (2 * Real.pi) * Complex.I / ((m : ℕ) : ℂ)) ^ (i * u)
    rw [everyOther_getD]
    congr 1
    rw [show (i + m) * (2 * u) = 2 * ((i + m) * u) from by ring, pow_mul, zeta_sq s m hm,
      show (i + m) * u = i * u + m * u from by ring, pow_add,
      pow_mul _ m u, zeta_m_pow s m hm, one_pow, mul_one]
  · apply Finset.sum_congr rfl
    intro u _
    show l.getD (2 * u + 1) 0 *
        Complex.exp ((s : ℂ) * (2 * Real.pi) * Complex.I / ((2 * m : ℕ) : ℂ)) ^
          ((i + m) * (2 * u + 1)) =
      -(Complex.exp ((s : ℂ) * (2 * Real.pi) * Complex.I / ((2 * m : ℕ) : ℂ)) ^ i *
        ((everyOther l.tail).getD u 0 *
          Complex.exp ((s : ℂ) * (2 * Real.pi) * Complex.I / ((m : ℕ) : ℂ)) ^ (i * u)))
    rw [everyOther_tail_getD]
    have hkey : Complex.exp ((s : ℂ) * (2 * Real.pi) * Complex.I / ((2 * m : ℕ) : ℂ)) ^
        ((i + m) * (2 * u + 1)) =
        -(Complex.exp ((s : ℂ) * (2 * Real.pi) * Complex.I / ((2 * m : ℕ) : ℂ)) ^ i *
          Complex.exp ((s : ℂ) * (2 * Real.pi) * Complex.I / ((m : ℕ) : ℂ)) ^ (i * u)) := by
      rw [show (i + m) * (2 * u + 1) = (i + m) + 2 * ((i + m) * u) from by ring, pow_add,
        pow_add, pow_mul, zeta_sq s m hm, zeta_half_pow s hs m hm,
        show (i + m) * u = i * u + m * u from by ring, pow_add, pow_mul _ m u,
        zeta_m_pow s m hm, one_pow, mul_one]
      ring
    rw [hkey]
    ring

/-- For a power-of-two length (with enough fuel, which the wrappers always
supply), the recursive transform computes the mathematical DFT pointwise. -/
theorem dfftAux_eq_dft (s : ℤ) (hs : s = 1 ∨ s = -1) :
    ∀ (k : ℕ) (fuel : ℕ) (l : List ℂ), l.length = 2 ^ k → l.length ≤ fuel →
      dfftAux s fuel l = (List.range l.length).map (dftPoint s l) := by
  intro k
  induction k with
  | zero =>
      intro fuel l hlen hfuel
      obtain ⟨a, rfl⟩ := List.length_eq_one.mp (by simpa using hlen)
      cases fuel with
      | zero => simp at hfuel
      | succ fuel =>
        rw [show dfftAux s (fuel + 1) [a] = [a] from by rw [dfftAux, if_pos (by simp)]]
        rw [show ([a] : List ℂ).length = 1 from rfl,
          show List.range 1 = [0] from by rfl, List.map_cons, List.map_nil]
        simp [dftPoint]
  | succ k ih =>
      intro fuel l hlen hfuel
      have hm : 0 < 2 ^ k := Nat.pos_pow_of_pos k (by norm_num)
      have hlen2 : l.length = 2 * 2 ^ k := by rw [hlen]; ring
      cases fuel with
      | zero =>
          have := Nat.pos_pow_of_pos (k + 1) (show 0 < 2 from by norm_num)
          omega
      | succ fuel =>
        have hev : (everyOther l).length = 2 ^ k := by
          rw [everyOther_length, hlen2]; omega
        have hod : (everyOther l.tail).length = 2 ^ k := by
          rw [everyOther_length, List.length_tail, hlen2]; omega
        rw [dfftAux, if_neg (by omega : ¬ l.length ≤ 1),
          ih fuel (everyOther l) hev (by omega), ih fuel (everyOther l.tail) hod (by omega),
          hev, hod]
        unfold combine
        apply List.map_congr_left
        intro j hj
        rw [List.mem_range] at hj
        have hhalf : l.length / 2 = 2 ^ k := by omega
        rcases Nat.lt_or_ge j (2 ^ k) with hjm | hjm
        · rw [if_pos (by omega : j < l.length / 2),
            getD_map_range _ _ _ hjm, getD_map_range _ _ _ hjm]
          exact (dftPoint_split_low s l (2 ^ k) hm hlen2 j).symm
        · obtain ⟨i, rfl⟩ : ∃ i, j = i + 2 ^ k := ⟨j - 2 ^ k, by omega⟩
          have hi : i < 2 ^ k := by omega
          rw [if_neg (by omega : ¬ i + 2 ^ k < l.length / 2),
            if_pos (by omega : i + 2 ^ k < l.length / 2 + l.length / 2), hhalf,
            Nat.add_sub_cancel, getD_map_range _ _ _ hi, getD_map_range _ _ _ hi]
          exact (dftPoint_split_high s hs l (2 ^ k) hm hlen2 i).symm

theorem dft_inv_point (x y : List ℂ) (hx : 0 < x.length) (hylen : y.length = x.length)
    (hy : ∀ t, t < x.length → y.getD t 0 = dftPoint 1 x t) (j : ℕ) (hj : j < x.length) :
    dftPoint (-1) y j = (x.length : ℂ) * x.getD j 0 := by
  have hnC : ((x.length : ℂ)) ≠ 0 := Nat.cast_ne_zero.mpr hx.ne'
  unfold dftPoint
  rw [hylen]
  have hstep : ∀ t ∈ Finset.range x.length,
      y.getD t 0 *
        Complex.exp (((-1 : ℤ) : ℂ) * (2 * Real.pi) * Complex.I * j * t / x.length) =
      ∑ u ∈ Finset.range x.length, x.getD u 0 *
        Complex.exp (2 * Real.pi * Complex.I * ((u - j : ℤ) : ℂ) * t / x.length) := by
    intro t ht
    rw [Finset.mem_range] at ht
    rw [hy t ht]
    unfold dftPoint
    rw [Finset.sum_mul]
    apply Finset.sum_congr rfl
    intro u _
    rw [mul_assoc, ← Complex.exp_add]
    congr 2
    push_cast
    field_simp
    ring
  rw [Finset.sum_congr rfl hstep, Finset.sum_comm]
  have hcollapse : ∀ u ∈ Finset.range x.length,
      (∑ t ∈ Finset.range x.length, x.getD u 0 *
        Complex.exp (2 * Real.pi * Complex.I * ((u - j : ℤ) : ℂ) * t / x.length)) =
      x.getD u 0 * (if (x.length : ℤ) ∣ ((u : ℤ) - (j : ℤ)) then (x.length : ℂ) else 0) := by
    intro u _
    rw [← Finset.mul_sum, exp_orth x.length hx ((u : ℤ) - (j : ℤ))]
  rw [Finset.sum_congr rfl hcollapse, Finset.sum_eq_single j]
  · rw [if_pos (by simp)]
    ring
  · intro u hu hne
    rw [Finset.mem_range] at hu
    rw [if_neg, mul_zero]
    intro hdvd
    have hz : ((u : ℤ) - (j : ℤ)) = 0 := by
      apply Int.eq_zero_of_abs_lt_dvd hdvd
      rw [abs_lt]
      omega
    have : u = j := by omega
    exact hne this
  · intro hj'
    rw [Finset.mem_range] at hj'
    exact absurd hj hj'

theorem conj_npdft (data : List ℝ) (n : ℕ) (j : ℕ) :
    (starRingEnd ℂ) (npdft n (xpad data) j) =
      ∑ s ∈ Finset.range n, xpad data s *
        Complex.exp ((2 * Real.pi) * Complex.I * j * s / n) := by
  unfold npdft
  rw [map_sum]
  apply Finset.sum_congr rfl
  intro s _
  rw [map_mul]
  congr 1
  · unfold xpad
    exact Complex.conj_ofReal _
  · rw [← Complex.exp_conj]
    congr 1
    simp only [map_div₀, map_mul, map_neg, Complex.conj_I, map_ofNat, Complex.conj_ofReal,
      map_natCast]
    ring

theorem auto_corr_eq_lin (data : List ℝ) (k : ℕ) (hk : k < data.length) :
    auto_corr data k = lin_autocorr data k := by
  set N := data.length with hN
  have hn0 : 0 < 2 * N := by omega
  have hnC : (((2 * N : ℕ) : ℂ)) ≠ 0 := Nat.cast_ne_zero.mpr hn0.ne'
  have hmain : npidft (2 * N) (fun j => npdft (2 * N) (xpad data) j *
      (starRingEnd ℂ) (npdft (2 * N) (xpad data) j)) k =
      ((lin_autocorr data k : ℝ) : ℂ) := by
    unfold npidft
    have hstep : ∀ j ∈ Finset.range (2 * N),
        (npdft (2 * N) (xpad data) j * (starRingEnd ℂ) (npdft (2 * N) (xpad data) j)) *
          Complex.exp ((2 * Real.pi) * Complex.I * j * k / (2 * N : ℕ)) =
        ∑ t ∈ Finset.range (2 * N), ∑ s ∈ Finset.range (2 * N),
          xpad data t * xpad data s *
            Complex.exp (2 * Real.pi * Complex.I * ((s + k - t : ℤ) : ℂ) * j / (2 * N : ℕ)) := by
      intro j _
      rw [conj_npdft]
      unfold npdft
      rw [Finset.sum_mul_sum, Finset.sum_mul]
      apply Finset.sum_congr rfl
      intro t _
      rw [Finset.sum_mul]
      apply Finset.sum_congr rfl
      intro s _
      have hexp : Complex.exp (-(2 * Real.pi) * Complex.I * j * t / (2 * N : ℕ)) *
          Complex.exp ((2 * Real.pi) * Complex.I * j * s / (2 * N : ℕ)) *
          Complex.exp ((2 * Real.pi) * Complex.I * j * k / (2 * N : ℕ)) =
          Complex.exp (2 * Real.pi * Complex.I * ((s + k - t : ℤ) : ℂ) * j / (2 * N : ℕ)) := by
        rw [← Complex.exp_add, ← Complex.exp_add]
        congr 1
        push_cast
        field_simp
        ring
      calc (xpad data t * Complex.exp (-(2 * Real.pi) * Complex.I * ↑j * ↑t / ((2 * N : ℕ) : ℂ)) *
            (xpad data s * Complex.exp ((2 * Real.pi) * Complex.I * ↑j * ↑s / ((2 * N : ℕ) : ℂ)))) *
            Complex.exp ((2 * Real.pi) * Complex.I * ↑j * ↑k / ((2 * N : ℕ) : ℂ))
          = xpad data t * xpad data s *
            (Complex.exp (-(2 * Real.pi) * Complex.I * ↑j * ↑t / ((2 * N : ℕ) : ℂ)) *
             Complex.exp ((2 * Real.pi) * Complex.I * ↑j * ↑s / ((2 * N : ℕ) : ℂ)) *
             Complex.exp ((2 * Real.pi) * Complex.I * ↑j * ↑k / ((2 * N : ℕ) : ℂ))) := by ring
        _ = xpad data t * xpad data s *
            Complex.exp (2 * Real.pi * Complex.I * ((s + k - t : ℤ) : ℂ) * ↑j /
              ((2 * N : ℕ) : ℂ)) := by rw [hexp]
    rw [Finset.sum_congr rfl hstep, Finset.sum_comm]
    have hswap : ∀ t ∈ Finset.range (2 * N),
        (∑ j ∈ Finset.range (2 * N), ∑ s ∈ Finset.range (2 * N),
          xpad data t * xpad data s *
            Complex.exp (2 * Real.pi * Complex.I * ((s + k - t : ℤ) : ℂ) * j / (2 * N : ℕ))) =
        ∑ s ∈ Finset.range (2 * N),
          xpad data t * xpad data s *
            (if ((2 * N : ℕ) : ℤ) ∣ (s + k - t : ℤ) then ((2 * N : ℕ) : ℂ) else 0) := by
      intro t _
      rw [Finset.sum_comm]
      apply Finset.sum_congr rfl
      intro s _
      rw [← Finset.mul_sum, exp_orth (2 * N) hn0 ((s : ℤ) + k - t)]
    rw [Finset.sum_congr rfl hswap, Finset.sum_comm]
    have hcollapse : ∀ s ∈ Finset.range (2 * N),
        (∑ t ∈ Finset.range (2 * N), xpad data t * xpad data s *
          (if ((2 * N : ℕ) : ℤ) ∣ (s + k - t : ℤ) then ((2 * N : ℕ) : ℂ) else 0)) =
        xpad data ((s + k) % (2 * N)) * xpad data s * ((2 * N : ℕ) : ℂ) := by
      intro s _
      rw [Finset.sum_eq_single ((s + k) % (2 * N))]
      · rw [if_pos]
        refine ⟨((s + k) / (2 * N) : ℕ), ?_⟩
        have hdm : ((2 * N : ℕ) : ℤ) * (((s + k) / (2 * N) : ℕ) : ℤ) +
            (((s + k) % (2 * N) : ℕ) : ℤ) = ((s + k : ℕ) : ℤ) := by
          exact_mod_cast Nat.div_add_mod (s + k) (2 * N)
        push_cast at hdm ⊢
        linear_combination -hdm
      · intro t ht hne
        rw [Finset.mem_range] at ht
        rw [if_neg, mul_zero]
        intro hdvd
        have hdvd2 : ((2 * N : ℕ) : ℤ) ∣ ((s + k : ℕ) : ℤ) - (t : ℤ) := by
          have he : ((s + k : ℕ) : ℤ) - (t : ℤ) = (s + k - t : ℤ) := by push_cast; ring
          rw [he]
          exact hdvd
        have hmod : (t : ℤ) % ((2 * N : ℕ) : ℤ) = ((s + k : ℕ) : ℤ) % ((2 * N : ℕ) : ℤ) :=
          Int.modEq_iff_dvd.mpr hdvd2
        rw [← Int.natCast_mod, ← Int.natCast_mod] at hmod
        have ht2 : t % (2 * N) = (s + k) % (2 * N) := by exact_mod_cast hmod
        rw [Nat.mod_eq_of_lt ht] at ht2
        exact hne ht2
      · intro hmem
        exact absurd (Finset.mem_range.mpr (Nat.mod_lt _ hn0)) hmem
    rw [Finset.sum_congr rfl hcollapse, ← Finset.sum_mul,
      mul_div_assoc, div_self hnC, mul_one]
    have hreal : ∀ s ∈ Finset.range (2 * N),
        xpad data ((s + k) % (2 * N)) * xpad data s =
        ((data.getD ((s + k) % (2 * N)) 0 * data.getD s 0 : ℝ) : ℂ) := by
      intro s _
      unfold xpad
      rw [Complex.ofReal_mul]
    rw [Finset.sum_congr rfl hreal, ← Complex.ofReal_sum]
    congr 1
    have hsub : Finset.range (N - k) ⊆ Finset.range (2 * N) := by
      apply Finset.range_subset.mpr
      omega
    rw [← Finset.sum_subset hsub]
    · apply Finset.sum_congr rfl
      intro s hs
      rw [Finset.mem_range] at hs
      rw [Nat.mod_eq_of_lt (by omega), mul_comm]
    · intro s hs hns
      rw [Finset.mem_range] at hs
      rw [Finset.mem_range, not_lt] at hns
      rcases Nat.lt_or_ge s N with hsN | hsN
      · rw [Nat.mod_eq_of_lt (by omega),
          List.getD_eq_default data 0 (by omega : data.length ≤ s + k), zero_mul]
      · rw [List.getD_eq_default data 0 (by omega : data.length ≤ s), mul_zero]
  unfold auto_corr
  rw [← hN, hmain, Complex.ofReal_re]

/-! ## Claim C2 -/

/-- Claim C2 (corrected): the FFT-accelerated `amdf` is a faithful optimisation
of the direct O(n²) evaluation of the formula it implements — at every lag
`k < N` it returns
`(S(k) + S((k+1) mod N) - 2 * r(k)) / N`, where `S(i) = ∑_{t ≥ i} x[t]²` is
the suffix energy and `r(k) = ∑_{n < N-k} x[n]·x[n+k]` the direct linear
autocorrelation (the FFT-based circular autocorrelation equals `r` exactly).
This squared-energy quantity is, however, not the naive Average Magnitude
Difference Function of the claim: it differs from
`(1/N)·∑_n |x[n] - x[n+k]|` (see the counterexample, `x = [1, 0]`, `k = 0`,
where the code yields `-1/2` and the naive AMDF `0`). -/
theorem amdf_eq_direct (data : List ℝ) (k : ℕ) (hk : k < data.length) :
    (amdf data).getD k 0 =
      (suffix_sq_sum data k + suffix_sq_sum data ((k + 1) % data.length) -
        2 * lin_autocorr data k) / (data.length : ℝ) := by
  have hlen : (sum_x2 data).length = data.length := sum_x2_length data
  unfold amdf
  rw [getD_map_range_any _ _ _ _ hk, sum_x2_getD data k hk]
  unfold np_roll_neg1
  rw [hlen, getD_map_range_any _ _ _ _ hk,
    sum_x2_getD data ((k + 1) % data.length) (Nat.mod_lt _ (by omega)),
    auto_corr_eq_lin data k hk]

theorem amdf_eq_direct_witness :
    (0 < [(1 : ℝ), 0].length) ∧
      (amdf [(1 : ℝ), 0]).getD 0 0 =
        (suffix_sq_sum [(1 : ℝ), 0] 0 +
          suffix_sq_sum [(1 : ℝ), 0] ((0 + 1) % [(1 : ℝ), 0].length) -
          2 * lin_autocorr [(1 : ℝ), 0] 0) / ([(1 : ℝ), 0].length : ℝ) :=
  ⟨by norm_num, amdf_eq_direct [(1 : ℝ), 0] 0 (by norm_num)⟩

/-- Claim C2, counterexample: at `x = [1, 0]`, lag 0, the optimised `amdf`
returns `-1/2` while the naive average absolute difference is `0`, so the
code does not compute the claimed quantity. -/
theorem amdf_not_naive :
    (amdf [(1 : ℝ), 0]).getD 0 0 ≠ naive_amdf [(1 : ℝ), 0] 0 := by
  have h1 : (amdf [(1 : ℝ), 0]).getD 0 0 = -(1 / 2) := by
    have hlen : (sum_x2 [(1 : ℝ), 0]).length = 2 := sum_x2_length [(1 : ℝ), 0]
    unfold amdf
    rw [getD_map_range_any _ _ _ _ (show 0 < [(1 : ℝ), 0].length from by norm_num),
      sum_x2_getD [(1 : ℝ), 0] 0 (by norm_num)]
    unfold np_roll_neg1
    rw [hlen, getD_map_range_any _ _ _ _ (show 0 < 2 from by norm_num),
      sum_x2_getD [(1 : ℝ), 0] ((0 + 1) % 2) (by norm_num),
      auto_corr_eq_lin [(1 : ℝ), 0] 0 (by norm_num)]
    norm_num [suffix_sq_sum, lin_autocorr, Finset.sum_range_succ]
  have h2 : naive_amdf [(1 : ℝ), 0] 0 = 0 := by
    norm_num [naive_amdf, Finset.sum_range_succ]
  rw [h1, h2]
  norm_num

/-! ## Claim C1 -/

/-- Claim C1 (confirmed): over exact complex arithmetic, for every complex
vector whose length is a power of two, `full_IFFT (FFT x) = x` — the
floating-point statement of the spec holds exactly in the real-number model. -/
theorem FFT_full_IFFT_roundtrip (x : List ℂ) (h : ∃ k, x.length = 2 ^ k) :
    full_IFFT (FFT x) = x := by
  obtain ⟨k, hk⟩ := h
  have hx : 0 < x.length := by
    rw [hk]
    exact Nat.pos_pow_of_pos k (by norm_num)
  have hnC : ((x.length : ℂ)) ≠ 0 := Nat.cast_ne_zero.mpr hx.ne'
  have hFFT : FFT x = (List.range x.length).map (dftPoint 1 x) :=
    dfftAux_eq_dft 1 (Or.inl rfl) k x.length x hk le_rfl
  have hFlen : (FFT x).length = x.length := by rw [hFFT]; simp
  have hIFFT : IFFT (FFT x) = (List.range x.length).map (dftPoint (-1) (FFT x)) := by
    have h2 := dfftAux_eq_dft (-1) (Or.inr rfl) k ((FFT x).length) (FFT x)
      (by rw [hFlen, hk]) le_rfl
    rw [hFlen] at h2
    unfold IFFT
    rw [hFlen]
    exact h2
  unfold full_IFFT
  rw [hIFFT, hFlen, List.map_map]
  apply List.ext_getElem (by simp)
  intro j h1 h2
  simp only [List.getElem_map, List.getElem_range, Function.comp_apply]
  have hj : j < x.length := by simpa using h2
  rw [dft_inv_point x (FFT x) hx hFlen
    (fun t ht => by rw [hFFT]; exact getD_map_range _ _ _ ht) j hj]
  rw [mul_comm, mul_div_assoc, div_self hnC, mul_one]
  rw [List.getD_eq_getElem?_getD, List.getElem?_eq_getElem hj]
  rfl

theorem FFT_full_IFFT_roundtrip_witness :
    ([(1 : ℂ), Complex.I].length = 2 ^ 1) ∧
      full_IFFT (FFT [(1 : ℂ), Complex.I]) = [(1 : ℂ), Complex.I] :=
  ⟨rfl, FFT_full_IFFT_roundtrip [(1 : ℂ), Complex.I] ⟨1, rfl⟩⟩

theorem splitStart_zero (N n : ℕ) : splitStart N n 0 = 0 := by
  simp [splitStart]

theorem splitStart_succ (N n i : ℕ) :
    splitStart N n (i + 1) = splitStart N n i + splitSize N n i := by
  simp only [splitStart, splitSize, Nat.succ_mul]
  split <;> omega

theorem splitStart_self (N n : ℕ) (hn : 0 < n) : splitStart N n n = N := by
  have h1 : N % n < n := Nat.mod_lt N hn
  have h2 : n * (N / n) + N % n = N := Nat.div_add_mod N n
  simp only [splitStart]
  have h3 : n * (N / n) = n * (N / n) := rfl
  have h4 : min n (N % n) = N % n := Nat.min_eq_right (le_of_lt h1)
  rw [h4, Nat.mul_comm] at *
  omega

theorem splitSize_pos (N n i : ℕ) (hn : 0 < n) (hN : n ≤ N) : 0 < splitSize N n i := by
  have h1 : 1 ≤ N / n := (Nat.one_le_div_iff hn).mpr hN
  simp only [splitSize]
  split <;> omega

theorem splitStart_mono (N n : ℕ) {i j : ℕ} (h : i ≤ j) :
    splitStart N n i ≤ splitStart N n j := by
  have h1 : i * (N / n) ≤ j * (N / n) := Nat.mul_le_mul_right _ h
  simp only [splitStart]
  omega

theorem splitStart_strictMono (N n : ℕ) (hn : 0 < n) (hN : n ≤ N) :
    StrictMono (splitStart N n) := by
  apply strictMono_nat_of_lt_succ
  intro i
  rw [splitStart_succ]
  have := splitSize_pos N n i hn hN
  omega

theorem splitStart_add_size_le (N n i : ℕ) (hn : 0 < n) (hi : i < n) :
    splitStart N n i + splitSize N n i ≤ N := by
  rw [← splitStart_succ]
  have h := splitStart_mono N n (show i + 1 ≤ n by omega)
  rw [splitStart_self N n hn] at h
  exact h

theorem array_split_getD (l : List α) (n i : ℕ) (hi : i < n) :
    (array_split l n).getD i [] =
      (l.drop (splitStart l.length n i)).take (splitSize l.length n i) := by
  simp only [array_split]
  rw [List.getD_eq_getElem?_getD, List.getElem?_map, List.getElem?_range hi]
  rfl

theorem array_split_chunk_length (l : List α) (n i : ℕ) (hn : 0 < n) (hN : n ≤ l.length)
    (hi : i < n) :
    ((l.drop (splitStart l.length n i)).take (splitSize l.length n i)).length =
      splitSize l.length n i := by
  rw [List.length_take, List.length_drop]
  have := splitStart_add_size_le l.length n i hn hi
  omega

theorem array_split_nonempty (l : List α) (n : ℕ) (hn : 0 < n) (hN : n ≤ l.length) :
    ∀ f ∈ array_split l n, f ≠ [] := by
  intro f hf
  simp only [array_split, List.mem_map, List.mem_range] at hf
  obtain ⟨i, hi, rfl⟩ := hf
  apply List.ne_nil_of_length_pos
  rw [array_split_chunk_length l n i hn hN hi]
  exact splitSize_pos l.length n i hn hN

theorem sum_splitSize (N n : ℕ) : ∀ i, ∑ j ∈ Finset.range i, splitSize N n j = splitStart N n i
  | 0 => by simp [splitStart]
  | i + 1 => by
      rw [Finset.sum_range_succ, sum_splitSize N n i, splitStart_succ]

/-- One interval of a strictly increasing integer chain contains any given
point below the top: existence and uniqueness. -/
theorem exists_unique_chain_interval (f : ℕ → ℕ) (hf : ∀ i, f i < f (i + 1)) :
    ∀ (n j : ℕ), f 0 ≤ j → j < f n → ∃! i, i < n ∧ f i ≤ j ∧ j < f (i + 1) := by
  have hmono : Monotone f := (strictMono_nat_of_lt_succ hf).monotone
  intro n
  induction n with
  | zero => intro j h0 hn; omega
  | succ n ih =>
      intro j h0 hn
      rcases le_or_lt (f n) j with h | h
      · refine ⟨n, ⟨by omega, h, hn⟩, ?_⟩
        rintro i ⟨hi, hfi, hfi1⟩
        by_contra hne
        have : i + 1 ≤ n := by omega
        have := hmono this
        omega
      · obtain ⟨i, ⟨hi, hfi, hfi1⟩, huniq⟩ := ih j h0 h
        refine ⟨i, ⟨by omega, hfi, hfi1⟩, ?_⟩
        rintro i' ⟨hi', hfi', hfi1'⟩
        rcases Nat.lt_or_ge i' n with h' | h'
        · exact huniq i' ⟨h', hfi', hfi1'⟩
        · have : i' = n := by omega
          subst this
          omega

theorem sum_length_shift (c : ℕ → List ℝ) (i : ℕ) :
    ∑ j ∈ Finset.range (i + 1), (c j).length =
      (c 0).length + ∑ j ∈ Finset.range i, (c (j + 1)).length := by
  rw [Finset.sum_range_succ' (fun j => (c j).length) i]
  exact Nat.add_comm _ _

theorem segList_of_map_range (c : ℕ → List ℝ) :
    ∀ (n curr : ℕ),
      segList ((List.range n).map c) curr =
        (List.range n).map (fun i =>
          ((curr + ∑ j ∈ Finset.range i, (c j).length,
            curr + ∑ j ∈ Finset.range (i + 1), (c j).length), c i))
  | 0, curr => by simp [segList]
  | n + 1, curr => by
      have ih := segList_of_map_range (fun i => c (i + 1)) n (curr + (c 0).length)
      rw [List.range_succ_eq_map, List.map_cons, segList, List.map_map]
      have hcomp : (List.range n).map (c ∘ Nat.succ) =
          (List.range n).map (fun i => c (i + 1)) := by
        apply List.map_congr_left
        intro i _
        rfl
      rw [hcomp, ih, List.map_cons, List.map_map]
      refine congrArg₂ _ (by simp) ?_
      apply List.map_congr_left
      intro i _
      simp only [Function.comp_apply, Nat.succ_eq_add_one, Prod.mk.injEq]
      rw [sum_length_shift c i, sum_length_shift c (i + 1)]
      exact ⟨⟨by omega, by omega⟩, trivial⟩

theorem classifyFrame_cases (maxv : ℝ) (f : List ℝ) :
    classifyFrame maxv f = 0 ∨ classifyFrame maxv f = 1 ∨ classifyFrame maxv f = 2 := by
  simp only [classifyFrame]
  split
  · exact Or.inl rfl
  · split
    · exact Or.inr (Or.inl rfl)
    · exact Or.inr (Or.inr rfl)

theorem svuLoop_ok (maxv : ℝ) :
    ∀ (frames : List (List ℝ)) (curr : ℕ), (∀ f ∈ frames, f ≠ []) →
      svuLoop maxv frames curr =
        .ok (((segList frames curr).filter (fun p => classifyFrame maxv p.2 == 0)).length,
          ((segList frames curr).filter (fun p => classifyFrame maxv p.2 == 0)).map Prod.fst,
          ((segList frames curr).filter (fun p => classifyFrame maxv p.2 == 1)).map Prod.fst,
          ((segList frames curr).filter (fun p => classifyFrame maxv p.2 == 2)).map Prod.fst)
  | [], curr, _ => by simp [svuLoop, segList]
  | f :: rest, curr, hne => by
      have hf : f ≠ [] := hne f (List.mem_cons_self f rest)
      have hlen : ¬ f.length = 0 := by simpa using hf
      have ih := svuLoop_ok maxv rest (curr + f.length)
        (fun g hg => hne g (List.mem_cons_of_mem f hg))
      rcases classifyFrame_cases maxv f with h | h | h <;>
        simp [svuLoop, hlen, ih, segList, List.filter_cons, h]

theorem segList_array_split (data : List ℝ) (n : ℕ) (h1 : 0 < n) (h2 : n ≤ data.length) :
    segList (array_split data n) 0 =
      (List.range n).map (fun i =>
        ((splitStart data.length n i,
          splitStart data.length n i + splitSize data.length n i),
          (data.drop (splitStart data.length n i)).take (splitSize data.length n i))) := by
  have harr : array_split data n = (List.range n).map
      (fun i => (data.drop (splitStart data.length n i)).take (splitSize data.length n i)) :=
    rfl
  rw [harr, segList_of_map_range]
  apply List.map_congr_left
  intro i hi
  rw [List.mem_range] at hi
  have hsum : ∀ m, m ≤ n → (∑ j ∈ Finset.range m,
      ((data.drop (splitStart data.length n j)).take (splitSize data.length n j)).length) =
      splitStart data.length n m := by
    intro m hm
    rw [← sum_splitSize data.length n m]
    apply Finset.sum_congr rfl
    intro j hj
    rw [Finset.mem_range] at hj
    exact array_split_chunk_length data n j h1 h2 (by omega)
  rw [hsum i (by omega), hsum (i + 1) (by omega), splitStart_succ]
  simp

theorem segList_map_fst_eq_allSegs (data : List ℝ) (n : ℕ) (h1 : 0 < n)
    (h2 : n ≤ data.length) :
    (segList (array_split data n) 0).map Prod.fst = allSegs data.length n := by
  rw [segList_array_split data n h1 h2, allSegs, List.map_map]
  apply List.map_congr_left
  intro i _
  rfl

theorem allSegs_getD (N n i : ℕ) (hi : i < n) :
    (allSegs N n).getD i (0, 0) =
      (splitStart N n i, splitStart N n i + splitSize N n i) := by
  simp only [allSegs]
  rw [List.getD_eq_getElem?_getD, List.getElem?_map, List.getElem?_range hi]
  rfl

theorem svu_eq (data : List ℝ) (n : ℕ) (h1 : 0 < n) (h2 : n ≤ data.length) :
    calculate_silence_ratio_voiced_unvoiced data n =
      .ok (((((segList (array_split data n) 0).filter
          (fun p => classifyFrame (calculate_max_vol data n) p.2 == 0)).length : ℕ) : ℝ) /
            (n : ℝ),
        ((segList (array_split data n) 0).filter
          (fun p => classifyFrame (calculate_max_vol data n) p.2 == 0)).map Prod.fst,
        ((segList (array_split data n) 0).filter
          (fun p => classifyFrame (calculate_max_vol data n) p.2 == 1)).map Prod.fst,
        ((segList (array_split data n) 0).filter
          (fun p => classifyFrame (calculate_max_vol data n) p.2 == 2)).map Prod.fst) := by
  simp only [calculate_silence_ratio_voiced_unvoiced]
  rw [svuLoop_ok _ _ _ (array_split_nonempty data n h1 h2)]

theorem three_filter_perm (maxv : ℝ) :
    ∀ L : List ((ℕ × ℕ) × List ℝ),
      ((L.filter (fun p => classifyFrame maxv p.2 == 0)) ++
        (L.filter (fun p => classifyFrame maxv p.2 == 1)) ++
        (L.filter (fun p => classifyFrame maxv p.2 == 2))).Perm L
  | [] => by simp
  | a :: L => by
      have ih := three_filter_perm maxv L
      rcases classifyFrame_cases maxv a.2 with h | h | h
      · simpa [List.filter_cons, h] using ih.cons a
      · simp only [List.filter_cons, h]
        norm_num
        rw [List.append_assoc] at ih
        exact List.perm_middle.trans (ih.cons a)
      · simp only [List.filter_cons, h]
        norm_num
        rw [List.append_assoc] at ih
        exact (List.Perm.append_left _ List.perm_middle).trans
          (List.perm_middle.trans (ih.cons a))

theorem countCrosses_zero {α : Type*} [LinearOrderedRing α] :
    ∀ (l : List α), (∀ x ∈ l, x = 0) → countCrosses l = 0
  | [], _ => rfl
  | [_], _ => rfl
  | x :: y :: rest, h => by
      have hx : x = 0 := h x (List.mem_cons_self _ _)
      have ih := countCrosses_zero (y :: rest) (fun z hz => h z (List.mem_cons_of_mem _ hz))
      simp [countCrosses, hx, ih]

theorem classifyFrame_allzero (maxv : ℝ) (f : List ℝ) (hmax : 0 < maxv)
    (hz : ∀ x ∈ f, x = 0) : classifyFrame maxv f = 0 := by
  have hzcr : calculate_zcr f = 0 := by
    unfold calculate_zcr
    rw [countCrosses_zero f hz]
    simp
  have hsum : ((f.map (fun x => x ^ 2)).sum : ℝ) = 0 := by
    apply List.sum_eq_zero
    intro y hy
    rw [List.mem_map] at hy
    obtain ⟨x, hx, rfl⟩ := hy
    rw [hz x hx]
    ring
  simp only [classifyFrame, hsum, Real.sqrt_zero]
  rw [if_pos]
  exact ⟨by rw [hzcr]; norm_num, by positivity⟩

/-- Claim C3 (corrected): `frame_signal` performs no overlap validation.  It
fails — with an unhandled ZeroDivisionError from `(len - frame_length) % hop`,
not a parameter-validation error — exactly when the hop
`int(frame_length * (1 - overlap))` is zero (in particular for `overlap = 1`
with positive `frame_length`); for `overlap > 1` the hop is negative and the
call can return frames normally (see the counterexample). -/
theorem frame_signal_hop_zero_error {α : Type*} [Zero α] (signal : List α)
    (frame_length : ℕ) (overlap : ℚ)
    (h : pyInt ((frame_length : ℚ) * (1 - overlap)) = 0) :
    frame_signal signal frame_length overlap = .error "ZeroDivisionError" := by
  simp [frame_signal, h]

theorem frame_signal_hop_zero_error_witness :
    pyInt ((1 : ℚ) * (1 - 1)) = 0 ∧
      frame_signal [(0 : ℝ)] 1 1 = .error "ZeroDivisionError" :=
  ⟨by norm_num [pyInt], frame_signal_hop_zero_error [(0 : ℝ)] 1 1 (by norm_num [pyInt])⟩

/-- Claim C3, counterexample: with `overlap = 2 ≥ 1` (hop `= -1`),
`frame_signal` is not rejected: it returns a frame list. -/
theorem frame_signal_overlap_two_ok :
    frame_signal [(0 : ℝ)] 1 2 = .ok [[0]] := by
  have e : (((1 : ℕ) : ℚ)) * (1 - 2) = ((-1 : ℤ) : ℚ) := by norm_num
  have h : pyInt (((1 : ℕ) : ℚ) * (1 - 2)) = -1 := by
    simp only [pyInt, e]
    rw [if_neg (by norm_num)]
    exact Int.ceil_intCast _
  unfold frame_signal
  rw [h]
  norm_num [pySliceStep, List.range_succ, List.filterMap_cons]

/-! ## Claim C5 -/

/-- Claim C5 (confirmed): when the total spectral magnitude is zero, both
`frequency_centroid` and `effective_bandwidth` return 0, and `ESRB` returns 0
whenever the frame volume argument is 0; all three are total (no division by
zero is performed in the degenerate case). -/
theorem degenerate_features_zero (fft frequencies band : List ℝ) (N : ℕ)
    (h : fft.sum = 0) :
    frequency_centroid fft frequencies = 0 ∧
      effective_bandwidth fft frequencies = 0 ∧
      ESRB N band 0 = 0 := by
  refine ⟨?_, ?_, ?_⟩
  · simp [frequency_centroid, h]
  · simp [effective_bandwidth, h]
  · simp [ESRB]

theorem degenerate_features_zero_witness :
    ([(0 : ℝ), 0].sum = 0) ∧
      (frequency_centroid [(0 : ℝ), 0] [1, 2] = 0 ∧
        effective_bandwidth [(0 : ℝ), 0] [1, 2] = 0 ∧
        ESRB 4 [(1 : ℝ)] 0 = 0) :=
  ⟨by norm_num, degenerate_features_zero [(0 : ℝ), 0] [1, 2] [(1 : ℝ)] 4 (by norm_num)⟩

/-! ## Claim C7 -/

/-- Claim C7 (corrected): for every nonempty frame, whenever `find_peaks` finds
fewer than two local minima of the AMDF curve with prominence at least
`0.85 * (max - min)`, `calculate_f0` falls back to a spacing of 1 sample and
returns the sample rate, without raising.  (The nonemptiness hypothesis is
forced: on an empty frame the code raises inside `amdf` — see the
counterexample — rather than returning the sample rate.) -/
theorem calculate_f0_fallback (data : List ℝ) (sample_rate : ℕ) (hne : data ≠ [])
    (hmin : (promPeaks ((amdf data).map (fun x => -x))
      (0.85 * amplitude (amdf data))).length < 2) :
    calculate_f0 data sample_rate = .ok (sample_rate : ℝ) := by
  have hlen : ¬ data.length = 0 := by simpa using hne
  have hnone : find_average_minima_spacing (amdf data) (0.85 * amplitude (amdf data)) =
      none := by
    simp [find_average_minima_spacing, hmin]
  simp [calculate_f0, hlen, hnone]

theorem calculate_f0_fallback_witness :
    ([(1 : ℝ)] ≠ []) ∧ calculate_f0 [(1 : ℝ)] 100 = .ok (100 : ℝ) := by
  have hshort : ((amdf [(1 : ℝ)]).map (fun x => -x)).length ≤ 2 := by
    simp [amdf_length]
  have hmin : (promPeaks ((amdf [(1 : ℝ)]).map (fun x => -x))
      (0.85 * amplitude (amdf [(1 : ℝ)]))).length < 2 := by
    simp [promPeaks, localMaxima_short _ hshort]
  exact ⟨by simp, calculate_f0_fallback [(1 : ℝ)] 100 (by simp) hmin⟩

/-- Claim C7, counterexample to universality over all frames: on the empty
frame (which vacuously has fewer than two qualifying minima) `calculate_f0`
raises inside `amdf` instead of returning the sample rate. -/
theorem calculate_f0_empty_error :
    calculate_f0 [] 100 = .error "ValueError: invalid number of FFT data points" := by
  simp [calculate_f0]

/-! ## Claim C8 -/

/-- Claim C8 (confirmed): `calculate_zcr` returns the number of strict sign
changes between consecutive samples divided by `2 * length` (that is its
definition via `countCrosses`); for a sequence of length `L ≥ 1` that strictly
alternates in sign at every consecutive pair it therefore returns exactly
`(L - 1) / (2 * L)`. -/
theorem zcr_alternating {α : Type*} [LinearOrderedField α] (data : List α)
    (h1 : 1 ≤ data.length) (hc : data.Chain' (fun x y => x * y < 0)) :
    calculate_zcr data = ((data.length : α) - 1) / (2 * data.length) := by
  unfold calculate_zcr
  rw [countCrosses_of_chain data hc, Nat.cast_sub h1, Nat.cast_one]

theorem zcr_alternating_witness :
    List.Chain' (fun x y => x * y < 0) [(1 : ℚ), -1, 1] ∧
      calculate_zcr [(1 : ℚ), -1, 1] =
        (([(1 : ℚ), -1, 1].length : ℚ) - 1) / (2 * [(1 : ℚ), -1, 1].length) :=
  ⟨by norm_num [List.chain'_cons],
    zcr_alternating [(1 : ℚ), -1, 1] (by norm_num) (by norm_num [List.chain'_cons])⟩

/-! ## Claim C10 -/

theorem cepstrumList_length (signal : List ℝ) :
    (cepstrumList signal).length = signal.length := by
  simp [cepstrumList]

/-- Claim C10 (corrected): for an integer sample rate `sr ≥ 500` (which makes
the quefrency band `[int(sr/500), int(sr/50))` nonempty) and a frame longer
than `int(sr/500)` samples — the extra hypothesis forced by the
counterexample: a shorter frame makes the sliced cepstrum empty and `argmax`
raise — `f0_from_cepstrum` returns `sr / k` for some integer `k` with
`int(sr/500) ≤ k ≤ int(sr/50) - 1`; consequently the F0 is strictly greater
than 50 Hz and at most `sr / int(sr/500)`. -/
theorem f0_cepstrum_range (signal : List ℝ) (sr : ℕ) (h500 : 500 ≤ sr)
    (hN : sr / 500 < signal.length) :
    ∃ k : ℕ, sr / 500 ≤ k ∧ k ≤ sr / 50 - 1 ∧
      f0_from_cepstrum signal sr = .ok ((sr : ℝ) / k) ∧
      50 < (sr : ℝ) / k ∧ (sr : ℝ) / k ≤ (sr : ℝ) / ((sr / 500 : ℕ) : ℝ) := by
  have hq : sr / 500 < sr / 50 := by
    have h1 : sr / 500 = sr / 50 / 10 := by rw [Nat.div_div_eq_div_mul]
    have h2 : 0 < sr / 50 := Nat.div_pos (by omega) (by norm_num)
    rw [h1]
    exact Nat.div_lt_self h2 (by norm_num)
  have hminq : 1 ≤ sr / 500 := (Nat.one_le_div_iff (by norm_num)).mpr h500
  set C := cepstrumList signal with hC
  set S := (C.drop (sr / 500)).take (sr / 50 - sr / 500) with hS
  have hSlen : S.length = min (sr / 50 - sr / 500) (signal.length - sr / 500) := by
    rw [hS, List.length_take, List.length_drop, cepstrumList_length]
  have hSpos : 0 < S.length := by
    rw [hSlen]
    omega
  have hSne : S ≠ [] := List.ne_nil_of_length_pos hSpos
  have hargmax : np_argmax S < S.length := np_argmax_lt_length S hSne
  have hkup : np_argmax S + sr / 500 < sr / 50 := by
    have : S.length ≤ sr / 50 - sr / 500 := by rw [hSlen]; omega
    omega
  refine ⟨np_argmax S + sr / 500, by omega, by omega, ?_, ?_, ?_⟩
  · have hne : S.isEmpty = false := by
      simp [List.isEmpty_iff, hSne]
    simp only [f0_from_cepstrum, ← hC, ← hS, hne, Bool.false_eq_true, if_false]
    norm_cast
  · have hk50 : 50 * (np_argmax S + sr / 500) < sr := by
      have h1 : np_argmax S + sr / 500 + 1 ≤ sr / 50 := by omega
      have h2 : (np_argmax S + sr / 500 + 1) * 50 ≤ sr :=
        (Nat.le_div_iff_mul_le (by norm_num)).mp h1
      omega
    have hkpos : (0 : ℝ) < ((np_argmax S + sr / 500 : ℕ) : ℝ) := by
      have : 0 < np_argmax S + sr / 500 := by omega
      exact_mod_cast this
    rw [lt_div_iff₀ hkpos]
    exact_mod_cast hk50
  · have h0 : (0 : ℝ) < ((sr / 500 : ℕ) : ℝ) := by exact_mod_cast hminq
    have hle : ((sr / 500 : ℕ) : ℝ) ≤ ((np_argmax S + sr / 500 : ℕ) : ℝ) := by
      exact_mod_cast Nat.le_add_left _ _
    gcongr

/-- Claim C10, counterexample to universality over all frames: with
`sr = 500` and a single-sample frame the quefrency band is nonempty
(`int(sr/500) = 1 < 10 = int(sr/50)`) but lies beyond the cepstrum's length,
so the sliced cepstrum is empty and the code raises in `np.argmax` instead of
returning `sr / k`. -/
theorem f0_cepstrum_short_frame_error :
    f0_from_cepstrum [(1 : ℝ)] 500 =
      .error "ValueError: attempt to get argmax of an empty sequence" := by
  have h : ((cepstrumList [(1 : ℝ)]).drop (500 / 500)).take (500 / 50 - 500 / 500) = [] := by
    have hlen : (cepstrumList [(1 : ℝ)]).length = 1 := by
      rw [cepstrumList_length]
      rfl
    have : ((cepstrumList [(1 : ℝ)]).drop 1) = [] := by
      apply List.eq_nil_of_length_eq_zero
      rw [List.length_drop, hlen]
    norm_num [this]
  simp only [f0_from_cepstrum, h]
  rfl


/-! ## Claim C4 -/

/-- Claim C4 (corrected): provided the signal has at least `nframes` samples
(so no chunk is empty and the ZCR division cannot raise) and the maximum frame
volume is strictly positive, every chunk consisting entirely of zero samples
is classified silent: its `(start, end)` sample range appears in the silent
segment list and in neither the voiced nor the unvoiced list.  The
positive-maximum hypothesis is forced by the counterexample: in an all-zero
signal the maximum volume is 0, the silent test `vol < 0.05 * maxv` fails
(`0 < 0` is false), and the all-zero frame lands in the unvoiced list. -/
theorem allzero_frame_silent (data : List ℝ) (nframes : ℕ) (h1 : 0 < nframes)
    (h2 : nframes ≤ data.length) (h3 : 0 < calculate_max_vol data nframes)
    (i : ℕ) (hi : i < nframes)
    (hz : ∀ x ∈ (array_split data nframes).getD i [], x = 0) :
    ∃ r si vo un,
      calculate_silence_ratio_voiced_unvoiced data nframes = .ok (r, si, vo, un) ∧
      (splitStart data.length nframes i,
        splitStart data.length nframes i + splitSize data.length nframes i) ∈ si ∧
      (splitStart data.length nframes i,
        splitStart data.length nframes i + splitSize data.length nframes i) ∉ vo ∧
      (splitStart data.length nframes i,
        splitStart data.length nframes i + splitSize data.length nframes i) ∉ un := by
  rw [array_split_getD data nframes i hi] at hz
  have hcls : classifyFrame (calculate_max_vol data nframes)
      ((data.drop (splitStart data.length nframes i)).take
        (splitSize data.length nframes i)) = 0 :=
    classifyFrame_allzero _ _ h3 hz
  have hinj := (splitStart_strictMono data.length nframes h1 h2).injective
  refine ⟨_, _, _, _, svu_eq data nframes h1 h2, ?_, ?_, ?_⟩
  · rw [segList_array_split data nframes h1 h2, List.mem_map]
    refine ⟨((splitStart data.length nframes i,
        splitStart data.length nframes i + splitSize data.length nframes i),
      (data.drop (splitStart data.length nframes i)).take
        (splitSize data.length nframes i)), ?_, rfl⟩
    rw [List.mem_filter]
    refine ⟨?_, by simp [hcls]⟩
    rw [List.mem_map]
    exact ⟨i, by rw [List.mem_range]; exact hi, rfl⟩
  · intro hmem
    rw [segList_array_split data nframes h1 h2, List.mem_map] at hmem
    obtain ⟨p, hp, hfst⟩ := hmem
    rw [List.mem_filter, List.mem_map] at hp
    obtain ⟨⟨i', hi', rfl⟩, hcl⟩ := hp
    rw [List.mem_range] at hi'
    have hstart : splitStart data.length nframes i' = splitStart data.length nframes i := by
      have := congrArg Prod.fst hfst
      simpa using this
    have hii : i' = i := hinj hstart
    subst hii
    rw [beq_iff_eq] at hcl
    simp only at hcl
    rw [hcls] at hcl
    exact absurd hcl (by norm_num)
  · intro hmem
    rw [segList_array_split data nframes h1 h2, List.mem_map] at hmem
    obtain ⟨p, hp, hfst⟩ := hmem
    rw [List.mem_filter, List.mem_map] at hp
    obtain ⟨⟨i', hi', rfl⟩, hcl⟩ := hp
    rw [List.mem_range] at hi'
    have hstart : splitStart data.length nframes i' = splitStart data.length nframes i := by
      have := congrArg Prod.fst hfst
      simpa using this
    have hii : i' = i := hinj hstart
    subst hii
    rw [beq_iff_eq] at hcl
    simp only at hcl
    rw [hcls] at hcl
    exact absurd hcl (by norm_num)

/-! ## Claim C9 -/

/-- Claim C9 (corrected): provided the signal has at least `nframes` samples —
the extra hypothesis forced by the counterexample, since `np.array_split`
otherwise produces empty chunks on which `calculate_zcr` raises
ZeroDivisionError — the classifier returns an ordered partition of
`[0, len(signal))`: the three returned segment lists are order-preserving
sublists of the canonical chunk-segment chain, together they are a
permutation of that chain, each segment has `start < end`, consecutive
segments abut, the chain starts at 0 and ends at `len(signal)`, every sample
index lies in exactly one segment, and the returned ratio is
`(number of silent segments) / nframes`. -/
theorem svu_partition (data : List ℝ) (nframes : ℕ) (h1 : 0 < nframes)
    (h2 : nframes ≤ data.length) :
    ∃ si vo un : List (ℕ × ℕ),
      calculate_silence_ratio_voiced_unvoiced data nframes =
        .ok ((si.length : ℝ) / (nframes : ℝ), si, vo, un) ∧
      si.Sublist (allSegs data.length nframes) ∧
      vo.Sublist (allSegs data.length nframes) ∧
      un.Sublist (allSegs data.length nframes) ∧
      (si ++ vo ++ un).Perm (allSegs data.length nframes) ∧
      (∀ s ∈ allSegs data.length nframes, s.1 < s.2) ∧
      (∀ i, i + 1 < nframes →
        ((allSegs data.length nframes).getD (i + 1) (0, 0)).1 =
          ((allSegs data.length nframes).getD i (0, 0)).2) ∧
      ((allSegs data.length nframes).getD 0 (0, 0)).1 = 0 ∧
      ((allSegs data.length nframes).getD (nframes - 1) (0, 0)).2 = data.length ∧
      ∀ j < data.length, ∃! i, i < nframes ∧
        splitStart data.length nframes i ≤ j ∧
        j < splitStart data.length nframes i + splitSize data.length nframes i := by
  refine ⟨((segList (array_split data nframes) 0).filter
      (fun p => classifyFrame (calculate_max_vol data nframes) p.2 == 0)).map Prod.fst,
    ((segList (array_split data nframes) 0).filter
      (fun p => classifyFrame (calculate_max_vol data nframes) p.2 == 1)).map Prod.fst,
    ((segList (array_split data nframes) 0).filter
      (fun p => classifyFrame (calculate_max_vol data nframes) p.2 == 2)).map Prod.fst,
    ?_, ?_, ?_, ?_, ?_, ?_, ?_, ?_, ?_, ?_⟩
  · rw [svu_eq data nframes h1 h2, List.length_map]
  · rw [← segList_map_fst_eq_allSegs data nframes h1 h2]
    exact (List.filter_sublist _).map _
  · rw [← segList_map_fst_eq_allSegs data nframes h1 h2]
    exact (List.filter_sublist _).map _
  · rw [← segList_map_fst_eq_allSegs data nframes h1 h2]
    exact (List.filter_sublist _).map _
  · rw [← segList_map_fst_eq_allSegs data nframes h1 h2, ← List.map_append, ← List.map_append]
    exact (three_filter_perm (calculate_max_vol data nframes)
      (segList (array_split data nframes) 0)).map Prod.fst
  · intro s hs
    rw [allSegs, List.mem_map] at hs
    obtain ⟨i, hi, rfl⟩ := hs
    rw [List.mem_range] at hi
    have := splitSize_pos data.length nframes i h1 h2
    simp only
    omega
  · intro i hilt
    rw [allSegs_getD _ _ _ (by omega), allSegs_getD _ _ _ (by omega), splitStart_succ]
  · rw [allSegs_getD _ _ _ h1, splitStart_zero]
  · rw [allSegs_getD _ _ _ (by omega)]
    simp only
    rw [← splitStart_succ]
    have he : nframes - 1 + 1 = nframes := by omega
    rw [he, splitStart_self _ _ h1]
  · intro j hj
    have hchain : ∀ i, splitStart data.length nframes i <
        splitStart data.length nframes (i + 1) := by
      intro i
      rw [splitStart_succ]
      have := splitSize_pos data.length nframes i h1 h2
      omega
    have h0 : splitStart data.length nframes 0 ≤ j := by rw [splitStart_zero]; omega
    have htop : j < splitStart data.length nframes nframes := by
      rw [splitStart_self _ _ h1]
      exact hj
    have hiu := exists_unique_chain_interval _ hchain nframes j h0 htop
    simpa only [splitStart_succ] using hiu

theorem allzero_frame_silent_witness :
    (0 < calculate_max_vol [(1 : ℝ), 0] 2) ∧
      (∀ x ∈ (array_split [(1 : ℝ), 0] 2).getD 1 [], x = 0) ∧
      (∃ r si vo un,
        calculate_silence_ratio_voiced_unvoiced [(1 : ℝ), 0] 2 = .ok (r, si, vo, un) ∧
        (splitStart [(1 : ℝ), 0].length 2 1,
          splitStart [(1 : ℝ), 0].length 2 1 + splitSize [(1 : ℝ), 0].length 2 1) ∈ si ∧
        (splitStart [(1 : ℝ), 0].length 2 1,
          splitStart [(1 : ℝ), 0].length 2 1 + splitSize [(1 : ℝ), 0].length 2 1) ∉ vo ∧
        (splitStart [(1 : ℝ), 0].length 2 1,
          splitStart [(1 : ℝ), 0].length 2 1 + splitSize [(1 : ℝ), 0].length 2 1) ∉ un) := by
  have ha : array_split [(1 : ℝ), 0] 2 = [[1], [0]] := by
    norm_num [array_split, splitStart, splitSize, List.range_succ]
  have hmax : (0 : ℝ) < calculate_max_vol [(1 : ℝ), 0] 2 := by
    norm_num [calculate_max_vol, ha, Real.sqrt_one, Real.sqrt_zero]
  have hz : ∀ x ∈ (array_split [(1 : ℝ), 0] 2).getD 1 [], x = 0 := by
    rw [ha]
    intro x hx
    simpa using hx
  exact ⟨hmax, hz,
    allzero_frame_silent [(1 : ℝ), 0] 2 (by norm_num) (by norm_num) hmax 1 (by norm_num) hz⟩

/-- Claim C4, counterexample: in the all-zero signal `[0, 0]` with one frame,
the all-zero frame is classified unvoiced (the whole-signal maximum volume is
0, so the silent test `vol < 0.05 * maxv` fails), not silent. -/
theorem allzero_signal_frame_unvoiced :
    calculate_silence_ratio_voiced_unvoiced [(0 : ℝ), 0] 1 =
      .ok (0, [], [], [(0, 2)]) := by
  norm_num [calculate_silence_ratio_voiced_unvoiced, calculate_max_vol, array_split,
    splitStart, splitSize, List.range_succ, svuLoop, classifyFrame, calculate_zcr,
    countCrosses, Real.sqrt_zero]

theorem svu_partition_witness :
    (0 < 2) ∧ (2 ≤ [(1 : ℝ), 0].length) ∧
      (∃ si vo un : List (ℕ × ℕ),
        calculate_silence_ratio_voiced_unvoiced [(1 : ℝ), 0] 2 =
          .ok ((si.length : ℝ) / ((2 : ℕ) : ℝ), si, vo, un) ∧
        si.Sublist (allSegs [(1 : ℝ), 0].length 2) ∧
        vo.Sublist (allSegs [(1 : ℝ), 0].length 2) ∧
        un.Sublist (allSegs [(1 : ℝ), 0].length 2) ∧
        (si ++ vo ++ un).Perm (allSegs [(1 : ℝ), 0].length 2) ∧
        (∀ s ∈ allSegs [(1 : ℝ), 0].length 2, s.1 < s.2) ∧
        (∀ i, i + 1 < 2 →
          ((allSegs [(1 : ℝ), 0].length 2).getD (i + 1) (0, 0)).1 =
            ((allSegs [(1 : ℝ), 0].length 2).getD i (0, 0)).2) ∧
        ((allSegs [(1 : ℝ), 0].length 2).getD 0 (0, 0)).1 = 0 ∧
        ((allSegs [(1 : ℝ), 0].length 2).getD (2 - 1) (0, 0)).2 = [(1 : ℝ), 0].length ∧
        ∀ j < [(1 : ℝ), 0].length, ∃! i, i < 2 ∧
          splitStart [(1 : ℝ), 0].length 2 i ≤ j ∧
          j < splitStart [(1 : ℝ), 0].length 2 i + splitSize [(1 : ℝ), 0].length 2 i) :=
  ⟨by norm_num, by norm_num,
    svu_partition [(1 : ℝ), 0] 2 (by norm_num) (by norm_num)⟩

/-- Claim C9, counterexample to universality over nonempty signals and
positive frame counts: with more frames than samples, `np.array_split`
produces empty chunks, on which `calculate_zcr` divides by zero, so the
classifier raises instead of returning any partition. -/
theorem svu_crash_small_signal :
    calculate_silence_ratio_voiced_unvoiced [(1 : ℝ)] 2 = .error "ZeroDivisionError" := by
  norm_num [calculate_silence_ratio_voiced_unvoiced, calculate_max_vol, array_split,
    splitStart, splitSize, List.range_succ, svuLoop]

theorem f0_cepstrum_range_witness :
    (500 ≤ 500) ∧ (500 / 500 < [(0 : ℝ), 0, 0].length) ∧
      (∃ k : ℕ, 500 / 500 ≤ k ∧ k ≤ 500 / 50 - 1 ∧
        f0_from_cepstrum [(0 : ℝ), 0, 0] 500 = .ok (((500 : ℕ) : ℝ) / k) ∧
        50 < ((500 : ℕ) : ℝ) / k ∧
        ((500 : ℕ) : ℝ) / k ≤ ((500 : ℕ) : ℝ) / ((500 / 500 : ℕ) : ℝ)) :=
  ⟨by norm_num, by norm_num,
    f0_cepstrum_range [(0 : ℝ), 0, 0] 500 (by norm_num) (by norm_num)⟩

/-! ## Claim C6 -/

/-- Claim C6 (corrected): for every signal with at least one sample — the
hypothesis forced by the counterexample: on the empty signal the padded signal
is still shorter than the window and `sliding_window_view` raises — and every
frame length `L > 0`, `frame_signal(signal, L, overlap=0)` produces exactly
`ceil((len(signal) - L) / L) + 1` frames, each of length `L`, whose
concatenation is exactly the zero-padded signal, with a pad shorter than `L`
making `(padded_length - L) mod hop = 0` (here `hop = L`). -/
theorem frame_signal_no_overlap_spec (signal : List ℝ) (L : ℕ) (hL : 0 < L)
    (hs : 1 ≤ signal.length) :
    ∃ (pad : ℕ) (frames : List (List ℝ)),
      frame_signal signal L 0 = .ok frames ∧
      (frames.length : ℤ) = ⌈((signal.length : ℚ) - (L : ℚ)) / (L : ℚ)⌉ + 1 ∧
      (∀ f ∈ frames, f.length = L) ∧
      frames.flatten = signal ++ List.replicate pad 0 ∧
      pad < L ∧
      (signal.length + pad - L) % L = 0 := by
  have hLZ : (0 : ℤ) < (L : ℤ) := by exact_mod_cast hL
  have hov0 : 0 ≤ Int.fmod ((signal.length : ℤ) - (L : ℤ)) (L : ℤ) := by
    rw [Int.fmod_eq_emod _ hLZ.le]
    exact Int.emod_nonneg _ hLZ.ne'
  have hovL : Int.fmod ((signal.length : ℤ) - (L : ℤ)) (L : ℤ) < L := by
    rw [Int.fmod_eq_emod _ hLZ.le]
    exact Int.emod_lt_of_pos _ hLZ
  have hdvd : (L : ℤ) ∣ ((signal.length : ℤ) - L -
      Int.fmod ((signal.length : ℤ) - (L : ℤ)) (L : ℤ)) := by
    rw [Int.fmod_eq_emod _ hLZ.le]
    exact Int.dvd_sub_of_emod_eq rfl
  obtain ⟨pad, hpadZ, hpadL⟩ : ∃ pad : ℕ, ((pad : ℤ) =
      (if Int.fmod ((signal.length : ℤ) - (L : ℤ)) (L : ℤ) ≠ 0 then
        (L : ℤ) - Int.fmod ((signal.length : ℤ) - (L : ℤ)) (L : ℤ) else 0)) ∧ pad < L := by
    refine ⟨(if Int.fmod ((signal.length : ℤ) - (L : ℤ)) (L : ℤ) ≠ 0 then
        (L : ℤ) - Int.fmod ((signal.length : ℤ) - (L : ℤ)) (L : ℤ) else 0).toNat, ?_, ?_⟩
    · apply Int.toNat_of_nonneg
      split <;> omega
    · have h1 : (if Int.fmod ((signal.length : ℤ) - (L : ℤ)) (L : ℤ) ≠ 0 then
          (L : ℤ) - Int.fmod ((signal.length : ℤ) - (L : ℤ)) (L : ℤ) else 0) < L := by
        split <;> omega
      omega
  have hdvd2 : (L : ℤ) ∣ ((signal.length : ℤ) - L + pad) := by
    rw [hpadZ]
    split
    · have he : (signal.length : ℤ) - L + ((L : ℤ) -
          Int.fmod ((signal.length : ℤ) - (L : ℤ)) (L : ℤ)) =
          ((signal.length : ℤ) - L -
            Int.fmod ((signal.length : ℤ) - (L : ℤ)) (L : ℤ)) + L := by ring
      rw [he]
      exact dvd_add hdvd (dvd_refl _)
    · rename_i h
      push_neg at h
      rw [add_zero]
      have := hdvd
      rw [h, sub_zero] at this
      exact this
  obtain ⟨m, hm⟩ := hdvd2
  have hsZ : (1 : ℤ) ≤ (signal.length : ℤ) := by exact_mod_cast hs
  have hpad0 : (0 : ℤ) ≤ (pad : ℤ) := Int.natCast_nonneg pad
  have hm0 : 0 ≤ m := by
    by_contra hneg
    push_neg at hneg
    have h1 : m ≤ -1 := by omega
    have h2 : (L : ℤ) * m ≤ (L : ℤ) * (-1) := by
      exact mul_le_mul_of_nonneg_left h1 hLZ.le
    omega
  have hmq : ((m.toNat : ℤ)) = m := Int.toNat_of_nonneg hm0
  have hmQ : (signal.length : ℤ) - L + pad = (L : ℤ) * (m.toNat : ℤ) := by rw [hmq]; exact hm
  have hP : signal.length + pad = (m.toNat + 1) * L := by
    have h1 : (signal.length : ℤ) + pad = ((m.toNat : ℤ) + 1) * L := by
      linear_combination hmQ
    exact_mod_cast h1
  have hPL : L ≤ signal.length + pad := by
    rw [hP]
    have : (m.toNat + 1) * L = m.toNat * L + L := by ring
    omega
  -- the value the code produces
  refine ⟨pad, (List.range (m.toNat + 1)).map
      (fun t => ((signal ++ List.replicate pad 0).drop (t * L)).take L), ?_, ?_, ?_, ?_, hpadL, ?_⟩
  · -- frame_signal returns .ok of exactly these frames
    have hhop : pyInt ((L : ℚ) * (1 - 0)) = (L : ℤ) := by simp [pyInt]
    simp only [frame_signal]
    rw [hhop, if_neg (by omega : ¬ (L : ℤ) = 0), ← hpadZ,
      if_neg (by omega : ¬ (pad : ℤ) < 0), Int.toNat_natCast]
    rw [if_neg (by
      rw [List.length_append, List.length_replicate]
      omega)]
    rw [List.length_append, List.length_replicate, hP]
    have harith : (m.toNat + 1) * L - L + 1 = m.toNat * L + 1 := by
      have : (m.toNat + 1) * L = m.toNat * L + L := by ring
      omega
    rw [harith, pySliceStep_map_range (m.toNat * L + 1) _ L hL]
    have hcount : (m.toNat * L + 1 + L - 1) / L = m.toNat + 1 := by
      have h1 : m.toNat * L + 1 + L - 1 = (m.toNat + 1) * L := by
        have : (m.toNat + 1) * L = m.toNat * L + L := by ring
        omega
      rw [h1]
      exact Nat.mul_div_cancel _ hL
    rw [hcount]
  · -- frame count
    rw [List.length_map, List.length_range]
    have hceil : ⌈((signal.length : ℚ) - (L : ℚ)) / (L : ℚ)⌉ = (m.toNat : ℤ) := by
      have hLQ : (0 : ℚ) < (L : ℚ) := by exact_mod_cast hL
      rw [Int.ceil_eq_iff]
      constructor
      · have h2 : (L : ℤ) * (m.toNat : ℤ) - L < (signal.length : ℤ) - L := by omega
        rw [lt_div_iff₀ hLQ]
        have heq : (((m.toNat : ℤ) : ℚ) - 1) * (L : ℚ) =
            ((((L : ℤ) * (m.toNat : ℤ) - L : ℤ)) : ℚ) := by
          push_cast
          ring
        rw [heq]
        exact_mod_cast h2
      · have h1 : (signal.length : ℤ) - L ≤ (L : ℤ) * (m.toNat : ℤ) := by omega
        rw [div_le_iff₀ hLQ]
        have heq : (((m.toNat : ℤ) : ℚ)) * (L : ℚ) =
            ((((L : ℤ) * (m.toNat : ℤ) : ℤ)) : ℚ) := by
          push_cast
          ring
        rw [heq]
        exact_mod_cast h1
    rw [hceil]
    push_cast
    ring
  · -- every frame has length L
    intro f hf
    rw [List.mem_map] at hf
    obtain ⟨t, ht, rfl⟩ := hf
    rw [List.mem_range] at ht
    rw [List.length_take, List.length_drop, List.length_append, List.length_replicate, hP]
    have h1 : (t + 1) * L ≤ (m.toNat + 1) * L := Nat.mul_le_mul_right _ (by omega)
    have h2 : (t + 1) * L = t * L + L := by ring
    omega
  · -- the concatenation is the padded signal
    apply join_chunks
    · exact hL
    · rw [List.length_append, List.length_replicate]
      exact hP
  · -- (padded_length - L) mod hop = 0
    rw [hP]
    have h1 : (m.toNat + 1) * L - L = m.toNat * L := by
      have : (m.toNat + 1) * L = m.toNat * L + L := by ring
      omega
    rw [h1]
    exact Nat.mul_mod_left _ _

/-- Claim C6, counterexample: on the empty signal (with `L = 4`, `overlap = 0`)
`frame_signal` does not produce `ceil((0-4)/4)+1 = 0` frames: the padded signal
(still empty, since the overhang is 0) is shorter than the window, and
`sliding_window_view` raises a ValueError. -/
theorem frame_signal_empty_error :
    frame_signal ([] : List ℝ) 4 0 =
      .error "ValueError: window shape cannot be larger than input array shape" := by
  have h : pyInt (((4 : ℕ) : ℚ) * (1 - 0)) = 4 := by simp [pyInt]
  have hf : Int.fmod ((([] : List ℝ).length : ℤ) - ((4 : ℕ) : ℤ)) 4 = 0 := by decide
  simp only [frame_signal]
  rw [h, hf]
  norm_num

/-- Witness for C6 at `signal = [1]`, `L = 1`. -/
theorem frame_signal_no_overlap_spec_witness :
    0 < 1 ∧ 1 ≤ ([(1 : ℝ)]).length ∧
    ∃ (pad : ℕ) (frames : List (List ℝ)),
      frame_signal [(1 : ℝ)] 1 0 = .ok frames ∧
      (frames.length : ℤ) = ⌈((([(1 : ℝ)]).length : ℚ) - ((1 : ℕ) : ℚ)) / ((1 : ℕ) : ℚ)⌉ + 1 ∧
      (∀ f ∈ frames, f.length = 1) ∧
      frames.flatten = [(1 : ℝ)] ++ List.replicate pad 0 ∧
      pad < 1 ∧
      (([(1 : ℝ)]).length + pad - 1) % 1 = 0 :=
  ⟨by decide, by decide, frame_signal_no_overlap_spec [(1 : ℝ)] 1 (by decide) (by decide)⟩
